import Mathlib

/-!
# Verification of the waybar-mpris player registry

A shallow embedding of the player-registry and control-command logic of
waybar-mpris (`main.go` and `mpris2client/mpris2.go`), with proofs of the
specification claims about it.

Conventions:
* Go slices of players are Lean `List Player`; indices are `Nat`.
* The Go `uint` selection index is a `Nat` kept below `2^64`; arithmetic that
  can wrap in Go is written with explicit `% 2^64`.
* DBus calls (`GetProperty`) are modelled by a `PropOracle` value giving the
  result of each fetch (`none` = transport error).
* Functions that would panic in Go (index out of range) return `Option`.
-/

namespace WaybarMpris

/-- A dbus `Variant` value, as far as the program inspects it: the type
switches in `Refresh` distinguish `string`, `[]string` and everything else;
`Position` reads an `int64`. -/
inductive DVariant where
  | str (s : String)
  | strList (l : List String)
  | int (i : Int)
  | other
deriving DecidableEq

/-- The `Player` struct of `main.go` (dbus handles dropped; they carry no
state the registry logic reads). -/
structure Player where
  fullName : String
  name : String := ""
  title : String := ""
  artist : String := ""
  album : String := ""
  position : Int := 0
  pid : Nat := 0
  playing : Bool := false
  stopped : Bool := false
  metadata : List (String × DVariant) := []
deriving DecidableEq

instance : Inhabited Player := ⟨{ fullName := "" }⟩

/-- Result of the two `GetProperty` calls made by `Player.Refresh`:
`none` models a transport error, `some` the fetched value
(for `PlaybackStatus`, the `val.String()` text). -/
structure PropOracle where
  playbackStatus : Option String := none
  metadata : Option (List (String × DVariant)) := none

/-- Does `pat` occur at the start of `s`? (Structural helper for
`strings.Contains`.) -/
def listStartsWith : List Char → List Char → Bool
  | _, [] => true
  | [], _ :: _ => false
  | c :: cs, d :: ds => c = d && listStartsWith cs ds

/-- Does `pat` occur somewhere in `s`? -/
def listContainsSub : List Char → List Char → Bool
  | [], pat => pat.isEmpty
  | c :: cs, pat => listStartsWith (c :: cs) pat || listContainsSub cs pat

/-- `strings.Contains`: substring containment on the character data. -/
def goContains (s sub : String) : Bool := listContainsSub s.data sub.data

/-- Key lookup in the metadata map; a missing key yields the zero
`dbus.Variant`, whose `Value()` is `nil` and therefore falls into the
`default` branch of every type switch, modelled by `DVariant.other`. -/
def mdLookup (md : List (String × DVariant)) (k : String) : DVariant :=
  match md.find? (fun kv => kv.1 = k) with
  | some kv => kv.2
  | none => DVariant.other

/-- `Player.Refresh` of `main.go` (lines 104-155). Returns the updated
player and whether a non-nil error was returned. -/
def playerRefresh (o : PropOracle) (p : Player) : Player × Bool :=
  match o.playbackStatus with
  | none =>
    ({ p with playing := false, stopped := false, metadata := [],
              title := "", artist := "", album := "" }, true)
  | some strVal =>
    let p :=
      if goContains strVal "Playing" then
        { p with playing := true, stopped := false }
      else if goContains strVal "Paused" then
        { p with playing := false, stopped := false }
      else
        { p with playing := false, stopped := true }
    match o.metadata with
    | none =>
      ({ p with metadata := [], title := "", artist := "", album := "" }, true)
    | some md =>
      let artist :=
        match mdLookup md "xesam:artist" with
        | DVariant.strList l => String.intercalate ", " l
        | DVariant.str s => s
        | _ => ""
      let title :=
        match mdLookup md "xesam:title" with
        | DVariant.str s => s
        | _ => ""
      let album :=
        match mdLookup md "xesam:album" with
        | DVariant.str s => s
        | _ => ""
      ({ p with metadata := md, artist := artist, title := title,
                album := album }, false)

/-- The `PlayerList` struct of `main.go`: the slice of players and the
`uint` selection index `current`. -/
structure PlayerList where
  list : List Player
  current : Nat
deriving DecidableEq

/-- An oracle assigning each player (by its bus name) the outcome of its
next property fetches, used when an operation triggers `Refresh`. -/
def OracleMap := String → PropOracle

/-- `PlayerList.Refresh`: refresh every player, discarding the per-player
error (`pl.list[i].Refresh()` ignores the return value). -/
def refreshAll (o : OracleMap) (l : List Player) : List Player :=
  l.map (fun p => (playerRefresh (o p.fullName) p).1)

/-- `PlayerList.Refresh` on the whole registry (total: no error escapes). -/
def plRefresh (o : OracleMap) (pl : PlayerList) : PlayerList :=
  { pl with list := refreshAll o pl.list }

/-- `PlayerList.New` (`main.go` lines 339-344): append the freshly
constructed player; under `AUTOFOCUS` move the selection to it. -/
def plNew (autofocus : Bool) (p : Player) (pl : PlayerList) : PlayerList :=
  let list := pl.list ++ [p]
  { list := list
    current := if autofocus then list.length - 1 else pl.current }

/-- The parallel swap `l[i], l[j] = l[j], l[i]` (used both by `Remove` and
by the sort's `Swap` method). An out-of-range index would panic in Go and
never occurs in the verified runs; the embedding returns the list
unchanged there. -/
def lswap {α : Type} [Inhabited α] (l : List α) (i j : Nat) : List α :=
  if i < l.length ∧ j < l.length then
    (l.set i (l.getD j default)).set j (l.getD i default)
  else l

/-- `PlayerList.Remove` (`main.go` lines 292-322). `none` models the Go
panic of `pl.list[pl.current]` when `current` is out of range (in
particular on an empty registry). The returned `Bool` records whether the
removed-was-current branch ran (`pl.Refresh()` plus an unconditional
output write). -/
def plRemove (o : OracleMap) (pl : PlayerList) (fullName : String) :
    Option (PlayerList × Bool) :=
  match pl.list[pl.current]? with
  | none => none
  | some cur =>
    let currentName := cur.fullName
    match pl.list.findIdx? (fun p => p.fullName = fullName) with
    | none => some (pl, false)
    | some i =>
      let l2 := (lswap pl.list 0 i).drop 1
      match l2.findIdx? (fun p => p.fullName = currentName) with
      | some ind => some ({ list := l2, current := ind }, false)
      | none =>
        some ({ list := refreshAll o l2, current := 0 }, true)

/-- Selection-rotation guard arithmetic: Go converts the `int` expression
`length - 1` to `uint` (64-bit), so `-1` becomes `2^64 - 1`. -/
def goUint64 (i : Int) : Nat := (i % (2 ^ 64 : Int)).toNat

/-- The `"player-next"` case of the command listener (`main.go` lines
515-525). The `Bool` records whether the body ran (refresh + write). -/
def playerNextCase (o : OracleMap) (pl : PlayerList) : PlayerList × Bool :=
  if pl.list.length ≠ 1 then
    (plRefresh o
      (if pl.current < goUint64 ((pl.list.length : Int) - 1) then
        { pl with current := (pl.current + 1) % 2 ^ 64 }
      else
        { pl with current := 0 }), true)
  else (pl, false)

/-- The `"player-prev"` case of the command listener (`main.go` lines
526-536). -/
def playerPrevCase (o : OracleMap) (pl : PlayerList) : PlayerList × Bool :=
  if pl.list.length ≠ 1 then
    (plRefresh o
      (if pl.current ≠ 0 then
        { pl with current := pl.current - 1 }
      else
        { pl with current := goUint64 ((pl.list.length : Int) - 1) }), true)
  else (pl, false)

/-! ## C1: registry operations and the selection-index invariant -/

/-- One registry mutation observed by the claim: an Add (`PlayerList.New`
with the player built by `NewPlayer`) or a Remove. -/
inductive RegOp where
  | add (p : Player)
  | remove (name : String)

/-- One step of the registry; `none` when the program would panic. -/
def regStep (autofocus : Bool) (o : OracleMap) (pl : PlayerList) :
    RegOp → Option PlayerList
  | RegOp.add p => some (plNew autofocus p pl)
  | RegOp.remove name => (plRemove o pl name).map (fun r => r.1)

/-- Run a sequence of Add/Remove operations from the freshly constructed
registry (`&PlayerList{conn: conn}`: empty slice, zero index). -/
def regRun (autofocus : Bool) (o : OracleMap) (ops : List RegOp) :
    Option PlayerList :=
  ops.foldlM (fun pl op => regStep autofocus o pl op) ⟨[], 0⟩

/-! ### Basic facts about the registry operations -/

theorem length_refreshAll (o : OracleMap) (l : List Player) :
    (refreshAll o l).length = l.length := by
  simp [refreshAll]

theorem length_lswap {α : Type} [Inhabited α] (l : List α) (i j : Nat) :
    (lswap l i j).length = l.length := by
  unfold lswap
  split_ifs <;> simp

theorem current_plRefresh (o : OracleMap) (pl : PlayerList) :
    (plRefresh o pl).current = pl.current := rfl

/-- The strengthened invariant: a valid index, or the empty registry with
index zero (the only empty state the operations produce). -/
def SelInv (pl : PlayerList) : Prop :=
  pl.current < pl.list.length ∨ (pl.list = [] ∧ pl.current = 0)

theorem selInv_plNew (autofocus : Bool) (p : Player) (pl : PlayerList)
    (h : SelInv pl) : SelInv (plNew autofocus p pl) := by
  unfold SelInv plNew at *
  rcases h with h | ⟨h1, h2⟩ <;> cases autofocus <;> simp_all <;> omega

theorem selInv_plRemove (o : OracleMap) {pl pl' : PlayerList} {e : Bool}
    {nm : String} (h : plRemove o pl nm = some (pl', e)) : SelInv pl' := by
  unfold plRemove at h
  cases hget : pl.list[pl.current]? with
  | none => simp only [hget] at h; exact absurd h (by simp)
  | some cur =>
    simp only [hget] at h
    cases hfind : pl.list.findIdx? (fun p => p.fullName = nm) with
    | none =>
      simp only [hfind, Option.some_inj, Prod.mk.injEq] at h
      rw [← h.1]
      left
      exact (List.getElem?_eq_some.mp hget).1
    | some i =>
      simp only [hfind] at h
      cases hfind2 : ((lswap pl.list 0 i).drop 1).findIdx?
          (fun p => p.fullName = cur.fullName) with
      | some ind =>
        simp only [hfind2, Option.some_inj, Prod.mk.injEq] at h
        rw [← h.1]
        left
        exact (List.findIdx?_eq_some_iff_findIdx_eq.mp hfind2).1
      | none =>
        simp only [hfind2, Option.some_inj, Prod.mk.injEq] at h
        rw [← h.1]
        cases hl2 : (lswap pl.list 0 i).drop 1 with
        | nil => right; simp [refreshAll, hl2]
        | cons q qs => left; simp [refreshAll, hl2]

theorem selInv_regStep (autofocus : Bool) (o : OracleMap)
    {pl pl' : PlayerList} {op : RegOp} (h0 : SelInv pl)
    (h : regStep autofocus o pl op = some pl') : SelInv pl' := by
  cases op with
  | add p =>
    simp only [regStep, Option.some_inj] at h
    exact h ▸ selInv_plNew autofocus p pl h0
  | remove nm =>
    simp only [regStep, Option.map_eq_some'] at h
    obtain ⟨⟨pl₁, e⟩, hrem, hfst⟩ := h
    exact hfst ▸ selInv_plRemove o hrem

theorem selInv_foldl (autofocus : Bool) (o : OracleMap) :
    ∀ (ops : List RegOp) (pl₀ pl : PlayerList), SelInv pl₀ →
      ops.foldlM (fun pl op => regStep autofocus o pl op) pl₀ = some pl →
      SelInv pl := by
  intro ops
  induction ops with
  | nil =>
    intro pl₀ pl h0 h
    simp only [List.foldlM_nil] at h
    cases h
    exact h0
  | cons op ops ih =>
    intro pl₀ pl h0 h
    rw [List.foldlM_cons] at h
    cases hstep : regStep autofocus o pl₀ op with
    | none => rw [hstep] at h; exact absurd h (by simp)
    | some pl₁ =>
      rw [hstep] at h
      exact ih pl₁ pl (selInv_regStep autofocus o h0 hstep) h

/-- C1 (confirmed): for every sequence of Add (`PlayerList.New`) and Remove
operations starting from the empty registry, every state actually reached
(the run not having panicked) has an empty player list or a
current-selection index strictly below the list length. -/
theorem c1_selection_index_valid (autofocus : Bool) (o : OracleMap)
    (ops : List RegOp) (pl : PlayerList)
    (h : regRun autofocus o ops = some pl) :
    pl.list = [] ∨ pl.current < pl.list.length := by
  have hInv : SelInv pl :=
    selInv_foldl autofocus o ops ⟨[], 0⟩ pl (Or.inr ⟨rfl, rfl⟩) h
  rcases hInv with h' | ⟨h1, _⟩
  · exact Or.inr h'
  · exact Or.inl h1

/-- A transport oracle in which every property fetch fails. -/
def oEmpty : OracleMap := fun _ => {}

/-- A sample player. -/
def pW : Player := { fullName := "org.mpris.MediaPlayer2.w" }

/-- Concrete players used by witnesses. -/
def pA : Player := { fullName := "a" }

def pB : Player := { fullName := "b" }

def pC : Player := { fullName := "c" }

def pD : Player := { fullName := "d" }

/-- Witness for C1: a concrete two-operation run reaching a concrete state
that satisfies the invariant. -/
theorem c1_selection_index_valid_witness :
    (PlayerList.mk [pW] 0).list = [] ∨
      (PlayerList.mk [pW] 0).current < (PlayerList.mk [pW] 0).list.length :=
  c1_selection_index_valid false oEmpty [RegOp.add pW] ⟨[pW], 0⟩ rfl

/-! ## C2: selection rotation -/

/-- C2 (counterexample): the claim says both rotation commands are no-ops
whenever fewer than 2 players exist, including an empty registry. On the
empty registry the guard `length != 1` is true, so `player-next` moves the
index from 0 to 1, and `player-prev` converts `length - 1 = -1` to `uint`,
setting the index to `2^64 - 1`. Neither leaves the index unchanged. -/
theorem c2_rotation_counterexample :
    (playerNextCase oEmpty ⟨[], 0⟩).1.current = 1 ∧
      (playerPrevCase oEmpty ⟨[], 0⟩).1.current = 2 ^ 64 - 1 := by
  constructor <;> decide

/-- C2 (amended): with `n` players, `player-next` and `player-prev` rotate
the selection with wraparound for `n ≥ 2` and are no-ops for `n = 1`
exactly; for `n = 0` they do change the index — `player-next` increments
it and `player-prev` (at index 0) sets it to `2^64 - 1`. -/
theorem c2_rotation_amended (o : OracleMap) (pl : PlayerList) :
    (2 ≤ pl.list.length → pl.current = pl.list.length - 1 →
      (playerNextCase o pl).1.current = 0) ∧
    (pl.current < pl.list.length - 1 → pl.list.length ≤ 2 ^ 64 →
      (playerNextCase o pl).1.current = pl.current + 1) ∧
    (2 ≤ pl.list.length → pl.list.length ≤ 2 ^ 64 → pl.current = 0 →
      (playerPrevCase o pl).1.current = pl.list.length - 1) ∧
    (pl.list.length ≠ 1 → 0 < pl.current →
      (playerPrevCase o pl).1.current = pl.current - 1) ∧
    (pl.list.length = 1 →
      (playerNextCase o pl).1 = pl ∧ (playerPrevCase o pl).1 = pl) ∧
    (pl.list.length = 0 → pl.current + 1 < 2 ^ 64 →
      (playerNextCase o pl).1.current = pl.current + 1) ∧
    (pl.list.length = 0 → pl.current = 0 →
      (playerPrevCase o pl).1.current = 2 ^ 64 - 1) := by
  have e64 : (2 : Int) ^ 64 = 18446744073709551616 := by norm_num
  have e64n : (2 : Nat) ^ 64 = 18446744073709551616 := by norm_num
  have hub : ∀ m : Nat, goUint64 (((m + 1 : Nat) : Int) - 1) = m % 2 ^ 64 := by
    intro m
    unfold goUint64
    rw [e64, e64n]
    omega
  have hneg : goUint64 (((0 : Nat) : Int) - 1) = 2 ^ 64 - 1 := by
    unfold goUint64
    rw [e64, e64n]
    omega
  refine ⟨?_, ?_, ?_, ?_, ?_, ?_, ?_⟩
  · intro h2 hcur
    unfold playerNextCase
    obtain ⟨m, hm⟩ : ∃ m, pl.list.length = m + 1 := ⟨pl.list.length - 1, by omega⟩
    rw [if_pos (by omega), if_neg (by rw [hm, hub]; omega)]
    rfl
  · intro hcur hlen
    unfold playerNextCase
    obtain ⟨m, hm⟩ : ∃ m, pl.list.length = m + 1 := ⟨pl.list.length - 1, by omega⟩
    have hm64 : m < 2 ^ 64 := by omega
    rw [if_pos (by omega), if_pos (by rw [hm, hub]; omega)]
    show (pl.current + 1) % 2 ^ 64 = pl.current + 1
    omega
  · intro h2 h64 hcur
    unfold playerPrevCase
    obtain ⟨m, hm⟩ : ∃ m, pl.list.length = m + 1 := ⟨pl.list.length - 1, by omega⟩
    rw [if_pos (by omega), if_neg (by omega)]
    show goUint64 ((pl.list.length : Int) - 1) = pl.list.length - 1
    rw [hm, hub]
    omega
  · intro hne hcur
    unfold playerPrevCase
    rw [if_pos hne, if_pos (by omega)]
    rfl
  · intro h1
    constructor
    · unfold playerNextCase
      rw [if_neg (by omega)]
    · unfold playerPrevCase
      rw [if_neg (by omega)]
  · intro h0 hlt
    unfold playerNextCase
    rw [if_pos (by omega), if_pos (by rw [h0, hneg]; omega)]
    show (pl.current + 1) % 2 ^ 64 = pl.current + 1
    omega
  · intro h0 hcur
    unfold playerPrevCase
    rw [if_pos (by omega), if_neg (by omega)]
    show goUint64 ((pl.list.length : Int) - 1) = 2 ^ 64 - 1
    rw [h0, hneg]

/-- Witness for C2 (amended): on a concrete 3-player registry,
`player-next` at index 2 wraps to 0, `player-prev` at index 0 wraps to 2,
and on a 1-player registry both commands are no-ops. -/
theorem c2_rotation_amended_witness :
    (playerNextCase oEmpty ⟨[pW, pW, pW], 2⟩).1.current = 0 ∧
      (playerPrevCase oEmpty ⟨[pW, pW, pW], 0⟩).1.current = 2 ∧
      (playerNextCase oEmpty ⟨[pW], 0⟩).1 = ⟨[pW], 0⟩ := by
  refine ⟨?_, ?_, ?_⟩
  · exact (c2_rotation_amended oEmpty ⟨[pW, pW, pW], 2⟩).1 (by decide) (by decide)
  · exact ((c2_rotation_amended oEmpty ⟨[pW, pW, pW], 0⟩).2.2.1)
      (by decide) (by norm_num) (by decide)
  · exact ((c2_rotation_amended oEmpty ⟨[pW], 0⟩).2.2.2.2.1 (by decide)).1

/-! ## Supporting lemmas about `PlayerList.Remove` -/

theorem fullName_playerRefresh (o : PropOracle) (p : Player) :
    (playerRefresh o p).1.fullName = p.fullName := by
  unfold playerRefresh
  cases o.playbackStatus with
  | none => rfl
  | some s =>
    dsimp only
    cases o.metadata with
    | none => split_ifs <;> rfl
    | some md => split_ifs <;> rfl

theorem map_fullName_refreshAll (o : OracleMap) (l : List Player) :
    (refreshAll o l).map Player.fullName = l.map Player.fullName := by
  induction l with
  | nil => rfl
  | cons p t ih =>
    simp only [refreshAll, List.map_cons] at ih ⊢
    rw [fullName_playerRefresh, ih]

theorem getD_eq_get (l : List Player) (i : Nat) (hi : i < l.length) (d : Player) :
    l.getD i d = l[i] := by
  rw [List.getD_eq_getElem?_getD, List.getElem?_eq_getElem hi]
  rfl

theorem getElem?_lswap (l : List Player) (i : Nat) (hi : i < l.length) (k : Nat) :
    (lswap l 0 i)[k]? =
      if k = 0 then l[i]? else if k = i then l[0]? else l[k]? := by
  have h0 : 0 < l.length := Nat.lt_of_le_of_lt (Nat.zero_le i) hi
  have hvj : l.getD i default = l[i] := getD_eq_get l i hi default
  have hv0 : l.getD 0 default = l[0] := getD_eq_get l 0 h0 default
  unfold lswap
  rw [if_pos ⟨h0, hi⟩]
  by_cases hk0 : k = 0
  · subst hk0
    rw [if_pos rfl]
    by_cases hi0 : i = 0
    · subst hi0
      rw [List.getElem?_set_self (by simpa using h0), hv0,
        List.getElem?_eq_getElem h0]
    · rw [List.getElem?_set_ne hi0, List.getElem?_set_self h0, hvj,
        List.getElem?_eq_getElem hi]
  · rw [if_neg hk0]
    by_cases hki : k = i
    · subst hki
      rw [if_pos rfl, List.getElem?_set_self (by simpa using hi), hv0,
        List.getElem?_eq_getElem h0]
    · rw [if_neg hki,
        List.getElem?_set_ne (fun h => hki h.symm),
        List.getElem?_set_ne (fun h => hk0 h.symm)]

theorem mem_drop_lswap {l : List Player} {i : Nat} (hi : i < l.length)
    {x : Player} (hx : x ∈ (lswap l 0 i).drop 1) :
    ∃ j, ∃ hj : j < l.length, j ≠ i ∧ l[j] = x := by
  obtain ⟨k, hk⟩ := List.mem_iff_getElem?.mp hx
  rw [List.getElem?_drop, getElem?_lswap l i hi] at hk
  rw [if_neg (by omega)] at hk
  by_cases hik : 1 + k = i
  · rw [if_pos hik] at hk
    have h0 : 0 < l.length := Nat.lt_of_le_of_lt (Nat.zero_le i) hi
    refine ⟨0, h0, by omega, ?_⟩
    rw [List.getElem?_eq_getElem h0] at hk
    exact Option.some_inj.mp hk
  · rw [if_neg hik] at hk
    have hlt : 1 + k < l.length := by
      by_contra hge
      rw [List.getElem?_eq_none (by omega)] at hk
      exact Option.noConfusion hk
    refine ⟨1 + k, hlt, hik, ?_⟩
    rw [List.getElem?_eq_getElem hlt] at hk
    exact Option.some_inj.mp hk

theorem fullName_ne_of_nodup {l : List Player}
    (hnd : (l.map Player.fullName).Nodup) {j c : Nat}
    (hj : j < l.length) (hc : c < l.length) (hne : j ≠ c) :
    l[j].fullName ≠ l[c].fullName := by
  intro hEq
  have hj' : j < (l.map Player.fullName).length := by simpa using hj
  have hc' : c < (l.map Player.fullName).length := by simpa using hc
  have hmap : (l.map Player.fullName)[j] = (l.map Player.fullName)[c] := by
    rw [List.getElem_map, List.getElem_map]
    exact hEq
  exact hne ((List.Nodup.getElem_inj_iff hnd).mp hmap)

theorem findIdx?_name_of_nodup {l : List Player} {c : Nat}
    (hnd : (l.map Player.fullName).Nodup) (hc : c < l.length) :
    l.findIdx? (fun p => p.fullName = l[c].fullName) = some c := by
  rw [List.findIdx?_eq_some_iff_findIdx_eq]
  refine ⟨hc, ?_⟩
  rw [List.findIdx_eq hc]
  constructor
  · simp
  · intro j hj
    have hj' : j < l.length := Nat.lt_trans hj hc
    simp only [decide_eq_false_iff_not]
    exact fullName_ne_of_nodup hnd hj' hc (Nat.ne_of_lt hj)

/-! ## C5: removing the current player -/

/-- C5 (confirmed): with pairwise-distinct player identities and a valid
selection, `Remove` of the currently selected identity yields exactly the
state with the selection reset to position 0, the survivor list refreshed,
and the event flag set — the branch that runs `pl.Refresh()` and writes
the output line unconditionally, with no comparison against the previous
content. -/
theorem c5_remove_current_resets_and_refreshes (o : OracleMap)
    (pl : PlayerList) (hnd : (pl.list.map Player.fullName).Nodup)
    (hc : pl.current < pl.list.length) :
    plRemove o pl (pl.list[pl.current].fullName) =
      some (⟨refreshAll o ((lswap pl.list 0 pl.current).drop 1), 0⟩, true) := by
  have hget : pl.list[pl.current]? = some pl.list[pl.current] :=
    List.getElem?_eq_getElem hc
  have hfind := findIdx?_name_of_nodup hnd hc
  have hnone : ((lswap pl.list 0 pl.current).drop 1).findIdx?
      (fun p => p.fullName = pl.list[pl.current].fullName) = none := by
    rw [List.findIdx?_eq_none_iff]
    intro x hx
    obtain ⟨j, hj, hjne, hjx⟩ := mem_drop_lswap hc hx
    simp only [decide_eq_false_iff_not]
    rw [← hjx]
    exact fullName_ne_of_nodup hnd hj hc hjne
  unfold plRemove
  simp only [hget, hfind, hnone]

/-- Witness for C5 on a concrete 4-player registry selecting "b". -/
theorem c5_remove_current_witness :
    plRemove oEmpty ⟨[pA, pB, pC, pD], 1⟩ "b" =
      some (⟨[pA, pC, pD], 0⟩, true) := by
  have h := c5_remove_current_resets_and_refreshes oEmpty
    ⟨[pA, pB, pC, pD], 1⟩ (by decide) (by decide)
  exact h.trans (by decide)

/-! ## C6: removing a non-current player -/

/-- C6 (confirmed): with pairwise-distinct identities and a valid
selection, `Remove` of an identity different from the current player's
leaves the identity of the selected player unchanged (the re-search by
`currentName` renumbers the index to follow the surviving entry). -/
theorem c6_remove_noncurrent_keeps_identity (o : OracleMap)
    (pl : PlayerList) (nm : String)
    (hnd : (pl.list.map Player.fullName).Nodup)
    (hc : pl.current < pl.list.length)
    (hne : nm ≠ pl.list[pl.current].fullName) :
    ∃ pl' e, plRemove o pl nm = some (pl', e) ∧
      ∃ hc' : pl'.current < pl'.list.length,
        pl'.list[pl'.current].fullName = pl.list[pl.current].fullName := by
  obtain ⟨lst, cur⟩ := pl
  simp only at hnd hc hne ⊢
  have hget : lst[cur]? = some lst[cur] := List.getElem?_eq_getElem hc
  cases hfind : lst.findIdx? (fun p => p.fullName = nm) with
  | none =>
    refine ⟨⟨lst, cur⟩, false, ?_, hc, rfl⟩
    unfold plRemove
    simp only [hget, hfind]
  | some i =>
    obtain ⟨hilt, hfidx⟩ := List.findIdx?_eq_some_iff_findIdx_eq.mp hfind
    have hiname : lst[i].fullName = nm := by
      have h := ((List.findIdx_eq hilt).mp hfidx).1
      simpa using h
    have hine : i ≠ cur := by
      intro h
      subst h
      exact hne hiname.symm
    have hcmem : ∃ x ∈ (lswap lst 0 i).drop 1,
        (fun p => decide (p.fullName = lst[cur].fullName)) x = true := by
      refine ⟨lst[cur], ?_, by simp⟩
      apply List.mem_iff_getElem?.mpr
      by_cases hc0 : cur = 0
      · subst hc0
        refine ⟨i - 1, ?_⟩
        rw [List.getElem?_drop, getElem?_lswap lst i hilt,
          if_neg (by omega), if_pos (by omega),
          List.getElem?_eq_getElem hc]
      · refine ⟨cur - 1, ?_⟩
        rw [List.getElem?_drop, getElem?_lswap lst i hilt,
          if_neg (by omega), if_neg (by omega),
          show 1 + (cur - 1) = cur by omega,
          List.getElem?_eq_getElem hc]
    have hfound := List.findIdx?_eq_some_of_exists hcmem
    have hindlt := List.findIdx_lt_length_of_exists hcmem
    have hindname : ((lswap lst 0 i).drop 1)[((lswap lst 0 i).drop 1).findIdx
          (fun p => p.fullName = lst[cur].fullName)].fullName =
        lst[cur].fullName := by
      have h := ((List.findIdx_eq hindlt).mp rfl).1
      simpa using h
    refine ⟨⟨(lswap lst 0 i).drop 1,
      ((lswap lst 0 i).drop 1).findIdx
        (fun p => p.fullName = lst[cur].fullName)⟩,
      false, ?_, hindlt, hindname⟩
    unfold plRemove
    simp only [hget, hfind, hfound]

/-- Witness for C6: removing "c" from a 4-player registry selecting "b"
keeps the selected identity "b". -/
theorem c6_remove_noncurrent_witness :
    ∃ pl' e, plRemove oEmpty ⟨[pA, pB, pC, pD], 1⟩ "c" = some (pl', e) ∧
      ∃ hc' : pl'.current < pl'.list.length,
        pl'.list[pl'.current].fullName = "b" :=
  c6_remove_noncurrent_keeps_identity oEmpty ⟨[pA, pB, pC, pD], 1⟩ "c"
    (by decide) (by decide) (by decide)

/-! ## C10: Remove does not preserve the survivors' order -/

/-- The identity sequence of the survivor list after a removal at position
`i ≥ 1`: the swap-with-front-and-drop scheme moves the old head to
position `i - 1`. -/
theorem map_fullName_drop_lswap (l : List Player) (i : Nat) (h1 : 1 ≤ i)
    (hi : i < l.length) :
    ((lswap l 0 i).drop 1).map Player.fullName =
      ((l.map Player.fullName).drop 1).take (i - 1)
        ++ [(l.map Player.fullName).getD 0 ""]
        ++ (l.map Player.fullName).drop (i + 1) := by
  apply List.ext_getElem?
  intro k
  have h0 : 0 < l.length := by omega
  have hlenA : (((l.map Player.fullName).drop 1).take (i - 1)).length = i - 1 := by
    rw [List.length_take, List.length_drop, List.length_map]
    omega
  have hlenAx : ((((l.map Player.fullName).drop 1).take (i - 1))
      ++ [(l.map Player.fullName).getD 0 ""]).length = i := by
    rw [List.length_append, hlenA, List.length_singleton]
    omega
  rw [List.getElem?_map, List.getElem?_drop, getElem?_lswap l i hi,
    if_neg (by omega)]
  by_cases hk1 : k < i - 1
  · rw [if_neg (by omega), List.getElem?_append, hlenAx, if_pos (by omega),
      List.getElem?_append, hlenA, if_pos hk1, List.getElem?_take,
      if_pos hk1, List.getElem?_drop, List.getElem?_map]
  · by_cases hk2 : k = i - 1
    · subst hk2
      rw [if_pos (by omega), List.getElem?_append, hlenAx, if_pos (by omega),
        List.getElem?_append, hlenA, if_neg (by omega),
        show i - 1 - (i - 1) = 0 from by omega,
        List.getElem?_eq_getElem h0, List.getD_eq_getElem?_getD,
        List.getElem?_map, List.getElem?_eq_getElem h0]
      rfl
    · rw [if_neg (by omega), List.getElem?_append, hlenAx, if_neg (by omega),
        List.getElem?_drop, show i + 1 + (k - i) = 1 + k from by omega,
        List.getElem?_map]

/-- C10 (confirmed, read with the removed position `i ≥ 1` as the claim's
formula presupposes — for `i = 0` the head itself is removed): removing
the identity at position `i` yields the survivor sequence
`old[1..i-1] ++ [old[0]] ++ old[i+1..]`, and for `i ≥ 2` this differs from
the survivors' original relative order viewed as `eraseIdx i`. -/
theorem c10_remove_reorders_survivors (o : OracleMap) (pl : PlayerList)
    (i : Nat) (hnd : (pl.list.map Player.fullName).Nodup)
    (hc : pl.current < pl.list.length)
    (hi : i < pl.list.length) (h1 : 1 ≤ i) :
    ∃ pl' e, plRemove o pl (pl.list[i].fullName) = some (pl', e) ∧
      pl'.list.map Player.fullName =
        (((pl.list.map Player.fullName).drop 1).take (i - 1)
          ++ [(pl.list.map Player.fullName).getD 0 ""]
          ++ (pl.list.map Player.fullName).drop (i + 1)) ∧
      (2 ≤ i → pl'.list.map Player.fullName ≠
        (pl.list.map Player.fullName).eraseIdx i) := by
  have hget : pl.list[pl.current]? = some pl.list[pl.current] :=
    List.getElem?_eq_getElem hc
  have hfind := findIdx?_name_of_nodup hnd hi
  have hnames : ∀ l' : List Player,
      l'.map Player.fullName =
        ((pl.list.map Player.fullName).drop 1).take (i - 1)
          ++ [(pl.list.map Player.fullName).getD 0 ""]
          ++ (pl.list.map Player.fullName).drop (i + 1) →
      (2 ≤ i → l'.map Player.fullName ≠
        (pl.list.map Player.fullName).eraseIdx i) := by
    intro l' hl' h2 hEq
    have hlen : (pl.list.map Player.fullName).length = pl.list.length := by
      simp
    have hLhs : (l'.map Player.fullName)[0]? =
        (pl.list.map Player.fullName)[1]? := by
      rw [hl', List.getElem?_append,
        if_pos (by simp),
        List.getElem?_append,
        if_pos (by rw [List.length_take, List.length_drop,
          List.length_map]; omega),
        List.getElem?_take, if_pos (by omega), List.getElem?_drop]
    have hRhs : ((pl.list.map Player.fullName).eraseIdx i)[0]? =
        (pl.list.map Player.fullName)[0]? := by
      rw [List.getElem?_eraseIdx, if_pos (by omega)]
    rw [hEq] at hLhs
    rw [hLhs] at hRhs
    have h1lt : 1 < (pl.list.map Player.fullName).length := by omega
    have h0lt : 0 < (pl.list.map Player.fullName).length := by omega
    rw [List.getElem?_eq_getElem h1lt, List.getElem?_eq_getElem h0lt] at hRhs
    have := (List.Nodup.getElem_inj_iff hnd).mp (Option.some_inj.mp hRhs)
    omega
  cases hfind2 : ((lswap pl.list 0 i).drop 1).findIdx?
      (fun p => p.fullName = pl.list[pl.current].fullName) with
  | some ind =>
    refine ⟨⟨(lswap pl.list 0 i).drop 1, ind⟩, false, ?_, ?_, ?_⟩
    · unfold plRemove
      simp only [hget, hfind, hfind2]
    · exact map_fullName_drop_lswap pl.list i h1 hi
    · exact hnames _ (map_fullName_drop_lswap pl.list i h1 hi)
  | none =>
    refine ⟨⟨refreshAll o ((lswap pl.list 0 i).drop 1), 0⟩, true, ?_, ?_, ?_⟩
    · unfold plRemove
      simp only [hget, hfind, hfind2]
    · rw [map_fullName_refreshAll]
      exact map_fullName_drop_lswap pl.list i h1 hi
    · intro h2
      rw [map_fullName_refreshAll]
      exact hnames _ (map_fullName_drop_lswap pl.list i h1 hi) h2

/-- Witness for C10: removing "c" (position 2) from `[a, b, c, d]` with
selection 0 gives survivor order `[b, a, d]`, which differs from the
original survivor order `[a, b, d]`. -/
theorem c10_remove_reorders_witness :
    ∃ pl' e, plRemove oEmpty ⟨[pA, pB, pC, pD], 0⟩ "c" = some (pl', e) ∧
      pl'.list.map Player.fullName =
        ((([pA, pB, pC, pD].map Player.fullName).drop 1).take 1
          ++ [([pA, pB, pC, pD].map Player.fullName).getD 0 ""]
          ++ ([pA, pB, pC, pD].map Player.fullName).drop 3) ∧
      (2 ≤ 2 → pl'.list.map Player.fullName ≠
        ([pA, pB, pC, pD].map Player.fullName).eraseIdx 2) :=
  c10_remove_reorders_survivors oEmpty ⟨[pA, pB, pC, pD], 0⟩ 2
    (by decide) (by decide) (by decide) (by decide)

/-! ## C4: degradation on failed property fetches -/

/-- A sample playing player with populated fields. -/
def pX : Player :=
  { fullName := "x", playing := true, title := "t", artist := "ar",
    album := "al", metadata := [("xesam:title", DVariant.str "t")] }

/-- An oracle whose status fetch succeeds with `Playing` but whose
metadata fetch fails. -/
def oStatusOnly : PropOracle := { playbackStatus := some "Playing" }

/-- C4 (counterexample): the claim says a failed fetch leaves the player
with `playing = false` and `stopped = true`. The code's status-failure
branch sets `stopped = false`, and on a metadata-only failure it keeps
the freshly parsed `playing = true`. -/
theorem c4_degrade_counterexample :
    (playerRefresh {} pX).1.stopped = false ∧
      ¬ (playerRefresh {} pX).1.stopped = true ∧
      (playerRefresh oStatusOnly pX).1.playing = true := by
  refine ⟨?_, ?_, ?_⟩ <;> decide

/-- C4 (amended): a failed `PlaybackStatus` fetch degrades the player to
`playing = false`, `stopped = false`, empty metadata map and empty
title/artist/album, returning the error; a failed `Metadata` fetch clears
only the metadata fields and keeps the playing/stopped flags parsed from
the status. `PlayerList.Refresh` discards the returned error (modelled by
`plRefresh` being total), so nothing reaches the registry's caller. -/
theorem c4_degrade_amended (p : Player) (o : PropOracle) :
    (o.playbackStatus = none →
      playerRefresh o p =
        ({ p with playing := false, stopped := false, metadata := [],
                  title := "", artist := "", album := "" }, true)) ∧
    (∀ s, o.playbackStatus = some s → o.metadata = none →
      playerRefresh o p =
        ({ p with
            playing := goContains s "Playing",
            stopped := !goContains s "Playing" && !goContains s "Paused",
            metadata := [], title := "", artist := "", album := "" },
          true)) := by
  constructor
  · intro h
    unfold playerRefresh
    rw [h]
  · intro s hs hm
    unfold playerRefresh
    rw [hs, hm]
    dsimp only
    split_ifs with h1 h2 <;> simp_all

/-- Witness for C4 (amended) at the concrete sample player. -/
theorem c4_degrade_amended_witness :
    playerRefresh {} pX =
      ({ pX with playing := false, stopped := false, metadata := [],
                 title := "", artist := "", album := "" }, true) ∧
    playerRefresh oStatusOnly pX =
      ({ pX with
          playing := goContains "Playing" "Playing",
          stopped := !goContains "Playing" "Playing"
            && !goContains "Playing" "Paused",
          metadata := [], title := "", artist := "", album := "" }, true) :=
  ⟨(c4_degrade_amended pX {}).1 rfl,
   (c4_degrade_amended pX oStatusOnly).2 "Playing" rfl rfl⟩

/-! ## C7 and C9: the `"share"` command -/

/-- An output destination reachable from the process `WRITER`. The
`generation` of `outFile` counts which `os.Create(OUTFILE)` call produced
the handle; `nilFile` is the nil `*os.File` returned by a failed create. -/
inductive Sink where
  | stdout
  | outFile (generation : Nat)
  | nilFile
deriving DecidableEq

/-- Is this sink a duplication-file handle? -/
def Sink.isFile : Sink → Bool
  | Sink.outFile _ => true
  | _ => false

/-- The process-wide `WRITER io.Writer`: initially `os.Stdout`; the
`share` handler replaces it by `io.MultiWriter(os.Stdout, out)`. -/
inductive GoWriter where
  | single (s : Sink)
  | multi (sinks : List Sink)
deriving DecidableEq

/-- The sinks a single `fmt.Fprintln(WRITER, ...)` reaches
(`io.MultiWriter` forwards each write to each listed writer once). -/
def writeTargets : GoWriter → List Sink
  | GoWriter.single s => [s]
  | GoWriter.multi ws => ws

/-- The command-listener state relevant to `share`: the installed writer,
how many `os.Create(OUTFILE)` calls (truncations) have run, and the
replies written back on control connections. -/
structure ShareState where
  writer : GoWriter := GoWriter.single Sink.stdout
  creates : Nat := 0
  responses : List String := []
deriving DecidableEq

/-- The `"share"` case of the command listener (`main.go` lines 559-565):
call `os.Create(OUTFILE)` (truncating the file); on error reply
`Failed: ...` — with no `continue`/`return` — then unconditionally
install `io.MultiWriter(os.Stdout, out)` and reply `success`.
`createOk` says whether the create succeeded; on failure `out` is the nil
file handle. -/
def shareCase (createOk : Bool) (st : ShareState) : ShareState :=
  let st1 : ShareState := { st with creates := st.creates + 1 }
  let st2 : ShareState :=
    if createOk then st1
    else { st1 with responses := st1.responses ++ ["Failed: <create error>"] }
  let out : Sink := if createOk then Sink.outFile st1.creates else Sink.nilFile
  let st3 : ShareState :=
    { st2 with writer := GoWriter.multi [Sink.stdout, out] }
  { st3 with responses := st3.responses ++ ["success"] }

/-- C7 (counterexample): the claim says that when mirroring is already
active a second `share` acknowledges immediately without re-installing
duplication. There is no mirroring-active flag: the second command
truncates the file again (`creates = 2`) and installs a new writer over a
fresh handle (different from the first installed writer). -/
theorem c7_share_counterexample :
    (shareCase true (shareCase true {})).creates = 2 ∧
      (shareCase true (shareCase true {})).writer ≠
        (shareCase true {}).writer := by
  constructor <;> decide

/-- C7 (amended): two successful `share` commands both reply `success`,
and afterwards a write to the Output Sink still reaches the duplication
file exactly once and stdout exactly once (the handler rebuilds the
multi-writer from `os.Stdout` rather than nesting it, so fan-out is never
duplicated) — but the second command re-truncates the file and
re-installs the writer instead of acknowledging immediately. -/
theorem c7_share_idempotent_amended (st : ShareState) :
    (shareCase true (shareCase true st)).responses =
      st.responses ++ ["success", "success"] ∧
    ((writeTargets (shareCase true (shareCase true st)).writer).filter
      Sink.isFile).length = 1 ∧
    ((writeTargets (shareCase true (shareCase true st)).writer).filter
      (fun s => s = Sink.stdout)).length = 1 ∧
    (shareCase true (shareCase true st)).creates = st.creates + 2 := by
  refine ⟨?_, ?_, ?_, ?_⟩ <;>
    simp [shareCase, writeTargets, Sink.isFile, List.filter]

/-- C9: the claim says a failed duplication-file create is fatal — no
`success` acknowledgement and no writer installed over the failed file.
The code writes `Failed: ...` but then falls through, replies `success`
on the same connection, and installs `io.MultiWriter(os.Stdout, out)`
with `out` the nil handle. -/
theorem c9_share_failure_behavior :
    (shareCase false {}).responses = ["Failed: <create error>", "success"] ∧
      (shareCase false {}).writer =
        GoWriter.multi [Sink.stdout, Sink.nilFile] := by
  constructor <;> decide

/-! ## C8: autofocus on Add -/

/-- The `Mpris2` struct of `mpris2client/mpris2.go` (bus connection and
message channel dropped). -/
structure Mpris2 where
  list : List Player
  current : Nat
  interpolate : Bool
  poll : Int
  autofocus : Bool
deriving DecidableEq

/-- `NewMpris2` (`mpris2client/mpris2.go` lines 234-243): the composite
literal assigns `List`, `Current`, `conn`, `Messages`, `interpolate` and
`poll` but never the `autofocus` field, which therefore keeps the zero
value `false` no matter what the `autofocus` argument was. -/
def newMpris2 (interpolate : Bool) (poll : Int) (autofocus : Bool) :
    Mpris2 :=
  { list := []
    current := 0
    interpolate := interpolate
    poll := poll
    autofocus := false }

/-- `Mpris2.New` (`mpris2client/mpris2.go` lines 338-343): append the new
player; when the `autofocus` field is set, move the selection to it. -/
def mpris2New (p : Player) (pl : Mpris2) : Mpris2 :=
  let list := pl.list ++ [p]
  { pl with
    list := list
    current := if pl.autofocus then list.length - 1 else pl.current }

/-- C8 (code bug): `PlayerList.New` honors the enabled autofocus mode
(selection moves to the appended entry, index `length - 1`), but in the
library registry the mode can never be enabled through its constructor:
`NewMpris2` drops its `autofocus` argument, so two Adds on a registry
requested with autofocus leave the selection at 0 instead of 1. -/
theorem c8_autofocus_constructor_drops_flag :
    (newMpris2 false 1 true).autofocus = false ∧
    (mpris2New pB (mpris2New pA (newMpris2 false 1 true))).current = 0 ∧
    (mpris2New pB (mpris2New pA (newMpris2 false 1 true))).list.length = 2 ∧
    (plNew true pB (plNew true pA ⟨[], 0⟩)).current = 1 ∧
    (plNew false pB (plNew false pA ⟨[], 5⟩)).current = 5 := by
  refine ⟨?_, ?_, ?_, ?_, ?_⟩ <;> decide

/-! ## C3: `sort.Sort` of Go 1.15 (the module's toolchain era)

`PlayerList.Sort` calls `sort.Sort(pl.list)`, whose algorithm (Go 1.15
`sort/sort.go`: `quickSort` with a ShellSort pass plus insertion sort for
segments of at most 12 elements, median-of-three/ninther pivoting,
duplicate protection and a heapsort depth fallback) determines the claim.
The embedding is generic in a `key : α → Bool` projection because
`List.Less i j` inspects only `playing`; loops become structural
recursion on an explicit iteration-count argument that is always at least
the number of iterations the Go loop performs, so the embedded functions
compute exactly what the Go code computes. -/

section GoSort

variable {α : Type} [Inhabited α]

/-- `key` of the element at index `i` (out-of-range reads, which Go would
panic on, read the default element; all verified uses are in bounds). -/
def kAt (key : α → Bool) (l : List α) (i : Nat) : Bool :=
  key (l.getD i default)

/-- `data.Less(i, j)` for the `List`/`PlayerArray` sort interface, in
terms of the key projection: `states[0] > states[1]` for two `0/1`
states means `key i && !key j`. -/
def sLess (key : α → Bool) (l : List α) (i j : Nat) : Bool :=
  kAt key l i && !kAt key l j

/-- The `List.Less` method exactly as written in `main.go` (lines
277-286): build `states : [2]uint8` from the two `playing` flags and
compare with `>`. -/
def listLess (l : List Player) (i j : Nat) : Bool :=
  decide ((if (l.getD i default).playing then (1 : Nat) else 0) >
    (if (l.getD j default).playing then (1 : Nat) else 0))

/-- The `uint8` comparison of `List.Less` is the key comparison the
generic embedding uses. -/
theorem listLess_eq_sLess (l : List Player) (i j : Nat) :
    listLess l i j = sLess Player.playing l i j := by
  unfold listLess sLess kAt
  cases (l.getD i default).playing <;> cases (l.getD j default).playing <;>
    decide

/-- Inner loop of `insertionSort`:
`for j := i; j > a && data.Less(j, j-1); j-- { data.Swap(j, j-1) }`. -/
def insInner (key : α → Bool) : Nat → List α → Nat → Nat → List α
  | 0, l, _, _ => l
  | steps + 1, l, j, a =>
    if a < j ∧ sLess key l j (j - 1) then
      insInner key steps (lswap l j (j - 1)) (j - 1) a
    else l

/-- Outer loop of `insertionSort`: `for i := a + 1; i < b; i++`. -/
def insOuter (key : α → Bool) : Nat → List α → Nat → Nat → List α
  | 0, l, _, _ => l
  | cnt + 1, l, i, a => insOuter key cnt (insInner key i l i a) (i + 1) a

/-- `insertionSort(data, a, b)` of Go 1.15 `sort/sort.go`. -/
def insertionSortGo (key : α → Bool) (l : List α) (a b : Nat) : List α :=
  insOuter key (b - (a + 1)) l (a + 1) a

/-- The ShellSort pass with gap 6 that `quickSort` runs before insertion
sort on segments of at most 12 elements:
`for i := a + 6; i < b; i++ { if data.Less(i, i-6) { data.Swap(i, i-6) } }`. -/
def shellPass (key : α → Bool) : Nat → List α → Nat → List α
  | 0, l, _ => l
  | cnt + 1, l, i =>
    shellPass key cnt
      (if sLess key l i (i - 6) then lswap l i (i - 6) else l) (i + 1)

/-- `siftDown(data, lo, hi, first)`: the first argument is the loop
variable `root`. -/
def siftDownGo (key : α → Bool) : Nat → List α → Nat → Nat → Nat → List α
  | 0, l, _, _, _ => l
  | fuel + 1, l, root, hi, first =>
    let child := 2 * root + 1
    if child ≥ hi then l
    else
      let child :=
        if child + 1 < hi ∧ sLess key l (first + child) (first + child + 1)
        then child + 1 else child
      if ¬ sLess key l (first + root) (first + child) then l
      else siftDownGo key fuel (lswap l (first + root) (first + child))
        child hi first

/-- Heap-building loop of `heapSort`:
`for i := (hi - 1) / 2; i >= 0; i--`. -/
def heapBuild (key : α → Bool) : Nat → List α → Nat → Nat → List α
  | 0, l, _, _ => l
  | i + 1, l, hi, first =>
    heapBuild key i (siftDownGo key (hi + 1) l i hi first) hi first

/-- Pop loop of `heapSort`: `for i := hi - 1; i >= 0; i--`. -/
def heapPop (key : α → Bool) : Nat → List α → Nat → List α
  | 0, l, _ => l
  | i + 1, l, first =>
    heapPop key i
      (siftDownGo key (i + 1) (lswap l first (first + i)) 0 i first) first

/-- `heapSort(data, a, b)` of Go 1.15 `sort/sort.go`. -/
def heapSortGo (key : α → Bool) (l : List α) (a b : Nat) : List α :=
  heapPop key (b - a) (heapBuild key ((b - a - 1) / 2 + 1) l (b - a) a) a

/-- `medianOfThree(data, m1, m0, m2)`: moves the median of the three
values into `data[m1]`. -/
def medianOfThreeGo (key : α → Bool) (l : List α) (m1 m0 m2 : Nat) :
    List α :=
  let l := if sLess key l m1 m0 then lswap l m1 m0 else l
  if sLess key l m2 m1 then
    let l := lswap l m2 m1
    if sLess key l m1 m0 then lswap l m1 m0 else l
  else l

/-- `for ; a < c && data.Less(a, pivot); a++` (pure index scan). -/
def scanA (key : α → Bool) : Nat → List α → Nat → Nat → Nat → Nat
  | 0, _, a, _, _ => a
  | fuel + 1, l, a, c, pivot =>
    if a < c ∧ sLess key l a pivot then scanA key fuel l (a + 1) c pivot
    else a

/-- `for ; b < c && !data.Less(pivot, b); b++`. -/
def scanB (key : α → Bool) : Nat → List α → Nat → Nat → Nat → Nat
  | 0, _, b, _, _ => b
  | fuel + 1, l, b, c, pivot =>
    if b < c ∧ ¬ sLess key l pivot b then scanB key fuel l (b + 1) c pivot
    else b

/-- `for ; b < c && data.Less(pivot, c-1); c--`. -/
def scanC (key : α → Bool) : Nat → List α → Nat → Nat → Nat → Nat
  | 0, _, _, c, _ => c
  | fuel + 1, l, b, c, pivot =>
    if b < c ∧ sLess key l pivot (c - 1) then scanC key fuel l b (c - 1) pivot
    else c

/-- The main partition loop of `doPivot` (scan `b` up, scan `c` down,
swap and continue until the scans meet). -/
def partLoop (key : α → Bool) :
    Nat → List α → Nat → Nat → Nat → List α × Nat × Nat
  | 0, l, b, c, _ => (l, b, c)
  | fuel + 1, l, b, c, pivot =>
    let b' := scanB key (c + 1) l b c pivot
    let c' := scanC key (c + 1) l b' c pivot
    if b' ≥ c' then (l, b', c')
    else partLoop key fuel (lswap l b' (c' - 1)) (b' + 1) (c' - 1) pivot

/-- `for ; a < b && !data.Less(b-1, pivot); b--` of the protect phase. -/
def scanBD (key : α → Bool) : Nat → List α → Nat → Nat → Nat → Nat
  | 0, _, _, b, _ => b
  | fuel + 1, l, a, b, pivot =>
    if a < b ∧ ¬ sLess key l (b - 1) pivot then
      scanBD key fuel l a (b - 1) pivot
    else b

/-- `for ; a < b && data.Less(a, pivot); a++` of the protect phase. -/
def scanAU (key : α → Bool) : Nat → List α → Nat → Nat → Nat → Nat
  | 0, _, a, _, _ => a
  | fuel + 1, l, a, b, pivot =>
    if a < b ∧ sLess key l a pivot then scanAU key fuel l (a + 1) b pivot
    else a

/-- The duplicate-protection loop of `doPivot`. -/
def protectLoop (key : α → Bool) :
    Nat → List α → Nat → Nat → Nat → List α × Nat × Nat
  | 0, l, a, b, _ => (l, a, b)
  | fuel + 1, l, a, b, pivot =>
    let b' := scanBD key (b + 1) l a b pivot
    let a' := scanAU key (b' + 1) l a b' pivot
    if a' ≥ b' then (l, a', b')
    else protectLoop key fuel (lswap l a' (b' - 1)) (a' + 1) (b' - 1) pivot

/-- The second and third duplicate tests of `doPivot`
(`if !data.Less(b-1, pivot) { b--; dups++ }` and
`if !data.Less(m, pivot) { data.Swap(m, b-1); b--; dups++ }`); the pivot
index is `lo`. Returns the updated `(data, b, dups)`. -/
def dup23 (key : α → Bool) (l : List α) (b d lo m : Nat) :
    List α × Nat × Nat :=
  let s2 := if sLess key l (b - 1) lo then (b, d) else (b - 1, d + 1)
  if sLess key l m lo then (l, s2.1, s2.2)
  else (lswap l m (s2.1 - 1), s2.1 - 1, s2.2 + 1)

/-- The duplicate-protection tests of `doPivot` (the `dups` block):
given the post-partition `l`, `b`, `c`, returns the updated
`(l, b, c, protect)`. The pivot index is `lo`. -/
def dupStage (key : α → Bool) (l : List α) (b c lo hi m : Nat) :
    List α × Nat × Nat × Bool :=
  let protect := hi - c < 5
  if ¬ protect ∧ hi - c < (hi - lo) / 4 then
    let s1 :=
      if ¬ sLess key l lo (hi - 1) then
        (lswap l c (hi - 1), c + 1, (1 : Nat))
      else (l, c, 0)
    let r := dup23 key s1.1 b s1.2.2 lo m
    (r.1, r.2.1, s1.2.1, decide (r.2.2 > 1))
  else (l, b, c, protect)

/-- The median-of-three setup of `doPivot`: Tukey ninther for segments
over 40 elements, then `medianOfThree(data, lo, m, hi-1)`. -/
def pivotSetup (key : α → Bool) (l : List α) (lo hi m : Nat) : List α :=
  let l0 :=
    if hi - lo > 40 then
      let s := (hi - lo) / 8
      medianOfThreeGo key
        (medianOfThreeGo key
          (medianOfThreeGo key l lo (lo + s) (lo + 2 * s))
          m (m - s) (m + s))
        (hi - 1) (hi - 1 - s) (hi - 1 - 2 * s)
    else l
  medianOfThreeGo key l0 lo m (hi - 1)

/-- `doPivot(data, lo, hi)` of Go 1.15 `sort/sort.go`, returning the
array together with `(midlo, midhi)`. The pivot index is `lo`. -/
def doPivotGo (key : α → Bool) (l : List α) (lo hi : Nat) :
    List α × Nat × Nat :=
  let m := (lo + hi) / 2
  let l1 := pivotSetup key l lo hi m
  let a := scanA key hi l1 (lo + 1) (hi - 1) lo
  let r := partLoop key (hi + 1) l1 a (hi - 1) lo
  let st := dupStage key r.1 r.2.1 r.2.2 lo hi m
  let s4 :=
    if st.2.2.2 then protectLoop key (hi + 1) st.1 a st.2.1 lo
    else (st.1, a, st.2.1)
  let l5 := if lo ≠ s4.2.2 - 1 then lswap s4.1 lo (s4.2.2 - 1) else s4.1
  (l5, s4.2.2 - 1, st.2.2.1)

/-- `quickSort(data, a, b, maxDepth)` of Go 1.15 `sort/sort.go`; the
`for b-a > 12` loop with its recursion-on-the-smaller-side scheme becomes
plain recursion with a fuel bound. -/
def quickSortGo (key : α → Bool) :
    Nat → List α → Nat → Nat → Nat → List α
  | 0, l, _, _, _ => l
  | fuel + 1, l, a, b, maxDepth =>
    if b - a > 12 then
      if maxDepth = 0 then heapSortGo key l a b
      else
        let r := doPivotGo key l a b
        let l1 := r.1
        let mlo := r.2.1
        let mhi := r.2.2
        if mlo - a < b - mhi then
          quickSortGo key fuel
            (quickSortGo key fuel l1 a mlo (maxDepth - 1))
            mhi b (maxDepth - 1)
        else
          quickSortGo key fuel
            (quickSortGo key fuel l1 mhi b (maxDepth - 1))
            a mlo (maxDepth - 1)
    else if b - a > 1 then
      insertionSortGo key (shellPass key (b - (a + 6)) l (a + 6)) a b
    else l

/-- The halving loop of `maxDepth`. -/
def bitLoop : Nat → Nat → Nat
  | 0, _ => 0
  | fuel + 1, i => if i > 0 then bitLoop fuel (i / 2) + 1 else 0

/-- `maxDepth(n) = 2 * ceil(lg(n+1))` of Go 1.15 `sort/sort.go`. -/
def maxDepthGo (n : Nat) : Nat := bitLoop (n + 1) n * 2

/-- `sort.Sort(data)`: `quickSort(data, 0, n, maxDepth(n))`. -/
def sortGo (key : α → Bool) (l : List α) : List α :=
  quickSortGo key (l.length + 1) l 0 l.length (maxDepthGo l.length)

end GoSort

/-- `PlayerList.Sort` (`main.go` lines 346-349): `sort.Sort(pl.list)`
then reset the selection to 0. -/
def plSort (pl : PlayerList) : PlayerList :=
  { list := sortGo Player.playing pl.list, current := 0 }

/-! ### Swap, permutation and framing infrastructure for the sort -/

section GoSortBasic

variable {α : Type} [Inhabited α]

theorem getD_set_self {l : List α} {i : Nat} {v : α} (hi : i < l.length) :
    (l.set i v).getD i default = v := by
  rw [List.getD_eq_getElem?_getD, List.getElem?_set_self hi]
  rfl

theorem getD_set_ne {l : List α} {i j : Nat} {v : α} (h : i ≠ j) :
    (l.set i v).getD j default = l.getD j default := by
  rw [List.getD_eq_getElem?_getD, List.getElem?_set_ne h,
    ← List.getD_eq_getElem?_getD]

theorem set_getD_self (l : List α) {i : Nat} (hi : i < l.length) :
    l.set i (l.getD i default) = l := by
  induction l generalizing i with
  | nil => rfl
  | cons x t ih =>
    cases i with
    | zero => simp
    | succ i' =>
      simp only [List.set_cons_succ, List.getD_cons_succ]
      rw [ih (by simpa using hi)]

/-- Characterization of the key at each index after a swap. -/
theorem getD_lswap (l : List α) {i j : Nat} (hi : i < l.length)
    (hj : j < l.length) (k : Nat) :
    (lswap l i j).getD k default =
      if k = i then l.getD j default
      else if k = j then l.getD i default
      else l.getD k default := by
  unfold lswap
  rw [if_pos ⟨hi, hj⟩]
  by_cases hki : k = i
  · subst hki
    rw [if_pos rfl]
    by_cases hkj : k = j
    · subst hkj
      rw [getD_set_self (by simpa using hj)]
    · rw [getD_set_ne (fun h => hkj h.symm), getD_set_self hi]
  · rw [if_neg hki]
    by_cases hkj : k = j
    · subst hkj
      rw [if_pos rfl, getD_set_self (by simpa using hj)]
    · rw [if_neg hkj, getD_set_ne (fun h => hkj h.symm),
        getD_set_ne (fun h => hki h.symm)]

/-- Positions other than the two swapped ones are untouched
(unconditionally, thanks to the out-of-range guard). -/
theorem getD_lswap_ne (l : List α) {i j k : Nat} (h1 : k ≠ i) (h2 : k ≠ j) :
    (lswap l i j).getD k default = l.getD k default := by
  unfold lswap
  split_ifs with h
  · rw [getD_set_ne (fun h => h2 h.symm), getD_set_ne (fun h => h1 h.symm)]
  · rfl

theorem set_cons_perm (t : List α) (k : Nat) (x : α) (hk : k < t.length) :
    (t.getD k default :: t.set k x).Perm (x :: t) := by
  induction t generalizing k with
  | nil => simp at hk
  | cons y s ih =>
    cases k with
    | zero =>
      simpa using List.Perm.swap x y s
    | succ k' =>
      simp only [List.getD_cons_succ, List.set_cons_succ]
      refine List.Perm.trans (List.Perm.swap _ _ _) ?_
      refine List.Perm.trans
        (List.Perm.cons y (ih k' (by simpa using hk))) ?_
      exact List.Perm.swap _ _ _

theorem set_set_perm (l : List α) (i j : Nat) (hij : i < j)
    (hj : j < l.length) :
    ((l.set i (l.getD j default)).set j (l.getD i default)).Perm l := by
  induction l generalizing i j with
  | nil => simp at hj
  | cons x t ih =>
    cases i with
    | zero =>
      cases j with
      | zero => omega
      | succ j' =>
        simp only [List.getD_cons_succ, List.getD_cons_zero,
          List.set_cons_zero, List.set_cons_succ]
        exact set_cons_perm t j' x (by simpa using hj)
    | succ i' =>
      cases j with
      | zero => omega
      | succ j' =>
        simp only [List.getD_cons_succ, List.set_cons_succ]
        exact List.Perm.cons x (ih i' j' (by omega) (by simpa using hj))

theorem lswap_perm (l : List α) (i j : Nat) : (lswap l i j).Perm l := by
  unfold lswap
  split_ifs with h
  · rcases Nat.lt_trichotomy i j with hij | hij | hij
    · exact set_set_perm l i j hij h.2
    · subst hij
      rw [List.set_set, set_getD_self l h.1]
    · rw [List.set_comm _ _ _ (by omega)]
      exact set_set_perm l j i hij h.1
  · exact List.Perm.refl l

theorem length_lswap_eq (l : List α) (i j : Nat) :
    (lswap l i j).length = l.length :=
  (lswap_perm l i j).length_eq

end GoSortBasic

/-! ### The sort permutes the list -/

section GoSortPerm

variable {α : Type} [Inhabited α] (key : α → Bool)

theorem insInner_perm :
    ∀ (steps : Nat) (l : List α) (j a : Nat),
      (insInner key steps l j a).Perm l := by
  intro steps
  induction steps with
  | zero => intro l j a; exact List.Perm.refl l
  | succ n ih =>
    intro l j a
    unfold insInner
    split_ifs with h
    · exact List.Perm.trans (ih _ _ _) (lswap_perm l j (j - 1))
    · exact List.Perm.refl l

theorem insOuter_perm :
    ∀ (cnt : Nat) (l : List α) (i a : Nat),
      (insOuter key cnt l i a).Perm l := by
  intro cnt
  induction cnt with
  | zero => intro l i a; exact List.Perm.refl l
  | succ n ih =>
    intro l i a
    unfold insOuter
    exact List.Perm.trans (ih _ _ _) (insInner_perm key i l i a)

theorem insertionSortGo_perm (l : List α) (a b : Nat) :
    (insertionSortGo key l a b).Perm l :=
  insOuter_perm key _ l _ a

theorem shellPass_perm :
    ∀ (cnt : Nat) (l : List α) (i : Nat),
      (shellPass key cnt l i).Perm l := by
  intro cnt
  induction cnt with
  | zero => intro l i; exact List.Perm.refl l
  | succ n ih =>
    intro l i
    unfold shellPass
    refine List.Perm.trans (ih _ _) ?_
    split_ifs with h
    · exact lswap_perm l i (i - 6)
    · exact List.Perm.refl l

theorem siftDownGo_perm :
    ∀ (fuel : Nat) (l : List α) (root hi first : Nat),
      (siftDownGo key fuel l root hi first).Perm l := by
  intro fuel
  induction fuel with
  | zero => intro l root hi first; exact List.Perm.refl l
  | succ n ih =>
    intro l root hi first
    unfold siftDownGo
    dsimp only
    split_ifs <;>
      first
        | exact List.Perm.refl l
        | exact List.Perm.trans (ih _ _ _ _) (lswap_perm _ _ _)

theorem heapBuild_perm :
    ∀ (cnt : Nat) (l : List α) (hi first : Nat),
      (heapBuild key cnt l hi first).Perm l := by
  intro cnt
  induction cnt with
  | zero => intro l hi first; exact List.Perm.refl l
  | succ n ih =>
    intro l hi first
    unfold heapBuild
    exact List.Perm.trans (ih _ _ _) (siftDownGo_perm key _ _ _ _ _)

theorem heapPop_perm :
    ∀ (cnt : Nat) (l : List α) (first : Nat),
      (heapPop key cnt l first).Perm l := by
  intro cnt
  induction cnt with
  | zero => intro l first; exact List.Perm.refl l
  | succ n ih =>
    intro l first
    unfold heapPop
    refine List.Perm.trans (ih _ _) ?_
    exact List.Perm.trans (siftDownGo_perm key _ _ _ _ _) (lswap_perm _ _ _)

theorem heapSortGo_perm (l : List α) (a b : Nat) :
    (heapSortGo key l a b).Perm l :=
  List.Perm.trans (heapPop_perm key _ _ _) (heapBuild_perm key _ _ _ _)

theorem medianOfThreeGo_perm (l : List α) (m1 m0 m2 : Nat) :
    (medianOfThreeGo key l m1 m0 m2).Perm l := by
  unfold medianOfThreeGo
  dsimp only
  split_ifs <;>
    first
      | exact List.Perm.refl l
      | exact lswap_perm _ _ _
      | exact List.Perm.trans (lswap_perm _ _ _) (lswap_perm _ _ _)
      | exact List.Perm.trans (lswap_perm _ _ _)
          (List.Perm.trans (lswap_perm _ _ _) (lswap_perm _ _ _))

theorem partLoop_perm :
    ∀ (fuel : Nat) (l : List α) (b c pivot : Nat),
      (partLoop key fuel l b c pivot).1.Perm l := by
  intro fuel
  induction fuel with
  | zero => intro l b c pivot; exact List.Perm.refl l
  | succ n ih =>
    intro l b c pivot
    unfold partLoop
    dsimp only
    split_ifs with h
    · exact List.Perm.refl l
    · exact List.Perm.trans (ih _ _ _ _) (lswap_perm _ _ _)

theorem protectLoop_perm :
    ∀ (fuel : Nat) (l : List α) (a b pivot : Nat),
      (protectLoop key fuel l a b pivot).1.Perm l := by
  intro fuel
  induction fuel with
  | zero => intro l a b pivot; exact List.Perm.refl l
  | succ n ih =>
    intro l a b pivot
    unfold protectLoop
    dsimp only
    split_ifs with h
    · exact List.Perm.refl l
    · exact List.Perm.trans (ih _ _ _ _) (lswap_perm _ _ _)

theorem ite_lswap_perm (c : Prop) [Decidable c] (x : List α) (i j : Nat) :
    (if c then lswap x i j else x).Perm x := by
  split_ifs
  · exact lswap_perm x i j
  · exact List.Perm.refl x

theorem dup23_perm (l : List α) (b d lo m : Nat) :
    (dup23 key l b d lo m).1.Perm l := by
  unfold dup23
  dsimp only
  split_ifs <;>
    first
      | exact List.Perm.refl l
      | exact lswap_perm _ _ _

theorem dupStage_perm (l : List α) (b c lo hi m : Nat) :
    (dupStage key l b c lo hi m).1.Perm l := by
  unfold dupStage
  dsimp only
  split_ifs <;>
    first
      | exact List.Perm.refl l
      | exact dup23_perm key _ _ _ _ _
      | exact List.Perm.trans (dup23_perm key _ _ _ _ _) (lswap_perm _ _ _)

theorem pivotSetup_perm (l : List α) (lo hi m : Nat) :
    (pivotSetup key l lo hi m).Perm l := by
  unfold pivotSetup
  dsimp only
  refine List.Perm.trans (medianOfThreeGo_perm key _ _ _ _) ?_
  split_ifs
  · exact List.Perm.trans (medianOfThreeGo_perm key _ _ _ _)
      (List.Perm.trans (medianOfThreeGo_perm key _ _ _ _)
        (medianOfThreeGo_perm key _ _ _ _))
  · exact List.Perm.refl l

theorem doPivotGo_perm (l : List α) (lo hi : Nat) :
    (doPivotGo key l lo hi).1.Perm l := by
  unfold doPivotGo
  dsimp only
  set m := (lo + hi) / 2 with hm
  set l1 := pivotSetup key l lo hi m with hl1
  set a := scanA key hi l1 (lo + 1) (hi - 1) lo with ha
  set r := partLoop key (hi + 1) l1 a (hi - 1) lo with hr
  set st := dupStage key r.1 r.2.1 r.2.2 lo hi m with hst
  have p1 : l1.Perm l := pivotSetup_perm key l lo hi m
  have p2 : r.1.Perm l1 := partLoop_perm key (hi + 1) l1 a (hi - 1) lo
  have p3 : st.1.Perm r.1 := dupStage_perm key r.1 r.2.1 r.2.2 lo hi m
  have p4 : (if st.2.2.2 = true then protectLoop key (hi + 1) st.1 a st.2.1 lo
      else (st.1, a, st.2.1)).1.Perm st.1 := by
    split_ifs
    · exact protectLoop_perm key _ _ _ _ _
    · exact List.Perm.refl _
  exact List.Perm.trans (ite_lswap_perm _ _ _ _)
    (p4.trans (p3.trans (p2.trans p1)))

theorem quickSortGo_perm :
    ∀ (fuel : Nat) (l : List α) (a b maxDepth : Nat),
      (quickSortGo key fuel l a b maxDepth).Perm l := by
  intro fuel
  induction fuel with
  | zero => intro l a b maxDepth; exact List.Perm.refl l
  | succ n ih =>
    intro l a b maxDepth
    unfold quickSortGo
    dsimp only
    split_ifs with h1 h2 h3 h4
    · exact heapSortGo_perm key l a b
    · exact List.Perm.trans (ih _ _ _ _)
        (List.Perm.trans (ih _ _ _ _) (doPivotGo_perm key l a b))
    · exact List.Perm.trans (ih _ _ _ _)
        (List.Perm.trans (ih _ _ _ _) (doPivotGo_perm key l a b))
    · exact List.Perm.trans (insertionSortGo_perm key _ a b)
        (shellPass_perm key _ l _)
    · exact List.Perm.refl l

theorem sortGo_perm (l : List α) : (sortGo key l).Perm l :=
  quickSortGo_perm key _ l 0 l.length (maxDepthGo l.length)

end GoSortPerm

/-! ### Scan specifications -/

section GoSortScans

variable {α : Type} [Inhabited α] (key : α → Bool)

theorem scanA_spec :
    ∀ (fuel : Nat) (l : List α) (a c pivot : Nat),
      a ≤ c → c - a ≤ fuel →
      a ≤ scanA key fuel l a c pivot ∧
      scanA key fuel l a c pivot ≤ c ∧
      (∀ i, a ≤ i → i < scanA key fuel l a c pivot →
        sLess key l i pivot = true) ∧
      (scanA key fuel l a c pivot < c →
        sLess key l (scanA key fuel l a c pivot) pivot = false) := by
  intro fuel
  induction fuel with
  | zero =>
    intro l a c pivot hac hfuel
    have : a = c := by omega
    subst this
    simp only [scanA]
    exact ⟨Nat.le_refl a, Nat.le_refl a, fun i h1 h2 => by omega,
      fun h => by omega⟩
  | succ n ih =>
    intro l a c pivot hac hfuel
    unfold scanA
    split_ifs with h
    · obtain ⟨h1, h2⟩ := h
      obtain ⟨g1, g2, g3, g4⟩ := ih l (a + 1) c pivot (by omega) (by omega)
      refine ⟨by omega, g2, ?_, g4⟩
      intro i hi1 hi2
      rcases Nat.eq_or_lt_of_le hi1 with rfl | hlt
      · exact h2
      · exact g3 i (by omega) hi2
    · refine ⟨Nat.le_refl a, hac, fun i h1 h2 => by omega, fun hc => ?_⟩
      rw [not_and_or] at h
      rcases h with h | h
      · omega
      · exact Bool.eq_false_iff.mpr h

theorem scanB_spec :
    ∀ (fuel : Nat) (l : List α) (b c pivot : Nat),
      b ≤ c → c - b ≤ fuel →
      b ≤ scanB key fuel l b c pivot ∧
      scanB key fuel l b c pivot ≤ c ∧
      (∀ i, b ≤ i → i < scanB key fuel l b c pivot →
        sLess key l pivot i = false) ∧
      (scanB key fuel l b c pivot < c →
        sLess key l pivot (scanB key fuel l b c pivot) = true) := by
  intro fuel
  induction fuel with
  | zero =>
    intro l b c pivot hbc hfuel
    have : b = c := by omega
    subst this
    simp only [scanB]
    exact ⟨Nat.le_refl b, Nat.le_refl b, fun i h1 h2 => by omega,
      fun h => by omega⟩
  | succ n ih =>
    intro l b c pivot hbc hfuel
    unfold scanB
    split_ifs with h
    · obtain ⟨h1, h2⟩ := h
      obtain ⟨g1, g2, g3, g4⟩ := ih l (b + 1) c pivot (by omega) (by omega)
      refine ⟨by omega, g2, ?_, g4⟩
      intro i hi1 hi2
      rcases Nat.eq_or_lt_of_le hi1 with rfl | hlt
      · exact Bool.eq_false_iff.mpr h2
      · exact g3 i (by omega) hi2
    · refine ⟨Nat.le_refl b, hbc, fun i h1 h2 => by omega, fun hc => ?_⟩
      rw [not_and_or] at h
      rcases h with h | h
      · omega
      · simpa using h

theorem scanC_spec :
    ∀ (fuel : Nat) (l : List α) (b c pivot : Nat),
      b ≤ c → c - b ≤ fuel →
      b ≤ scanC key fuel l b c pivot ∧
      scanC key fuel l b c pivot ≤ c ∧
      (∀ i, scanC key fuel l b c pivot ≤ i → i < c →
        sLess key l pivot i = true) ∧
      (b < scanC key fuel l b c pivot →
        sLess key l pivot (scanC key fuel l b c pivot - 1) = false) := by
  intro fuel
  induction fuel with
  | zero =>
    intro l b c pivot hbc hfuel
    have : b = c := by omega
    subst this
    simp only [scanC]
    exact ⟨Nat.le_refl b, Nat.le_refl b, fun i h1 h2 => by omega,
      fun h => by omega⟩
  | succ n ih =>
    intro l b c pivot hbc hfuel
    unfold scanC
    split_ifs with h
    · obtain ⟨h1, h2⟩ := h
      obtain ⟨g1, g2, g3, g4⟩ := ih l b (c - 1) pivot (by omega) (by omega)
      refine ⟨g1, by omega, ?_, g4⟩
      intro i hi1 hi2
      rcases Nat.lt_or_ge i (c - 1) with hlt | hge
      · exact g3 i hi1 hlt
      · have : i = c - 1 := by omega
        subst this
        exact h2
    · refine ⟨hbc, Nat.le_refl c, fun i h1 h2 => by omega, fun hc => ?_⟩
      rw [not_and_or] at h
      rcases h with h | h
      · omega
      · exact Bool.eq_false_iff.mpr h

theorem scanBD_spec :
    ∀ (fuel : Nat) (l : List α) (a b pivot : Nat),
      a ≤ b → b - a ≤ fuel →
      a ≤ scanBD key fuel l a b pivot ∧
      scanBD key fuel l a b pivot ≤ b ∧
      (∀ i, scanBD key fuel l a b pivot ≤ i → i < b →
        sLess key l i pivot = false) ∧
      (a < scanBD key fuel l a b pivot →
        sLess key l (scanBD key fuel l a b pivot - 1) pivot = true) := by
  intro fuel
  induction fuel with
  | zero =>
    intro l a b pivot hab hfuel
    have : a = b := by omega
    subst this
    simp only [scanBD]
    exact ⟨Nat.le_refl a, Nat.le_refl a, fun i h1 h2 => by omega,
      fun h => by omega⟩
  | succ n ih =>
    intro l a b pivot hab hfuel
    unfold scanBD
    split_ifs with h
    · obtain ⟨h1, h2⟩ := h
      obtain ⟨g1, g2, g3, g4⟩ := ih l a (b - 1) pivot (by omega) (by omega)
      refine ⟨g1, by omega, ?_, g4⟩
      intro i hi1 hi2
      rcases Nat.lt_or_ge i (b - 1) with hlt | hge
      · exact g3 i hi1 hlt
      · have : i = b - 1 := by omega
        subst this
        exact Bool.eq_false_iff.mpr h2
    · refine ⟨hab, Nat.le_refl b, fun i h1 h2 => by omega, fun hc => ?_⟩
      rw [not_and_or] at h
      rcases h with h | h
      · omega
      · simpa using h

theorem scanAU_spec :
    ∀ (fuel : Nat) (l : List α) (a b pivot : Nat),
      a ≤ b → b - a ≤ fuel →
      a ≤ scanAU key fuel l a b pivot ∧
      scanAU key fuel l a b pivot ≤ b ∧
      (∀ i, a ≤ i → i < scanAU key fuel l a b pivot →
        sLess key l i pivot = true) ∧
      (scanAU key fuel l a b pivot < b →
        sLess key l (scanAU key fuel l a b pivot) pivot = false) := by
  intro fuel
  induction fuel with
  | zero =>
    intro l a b pivot hab hfuel
    have : a = b := by omega
    subst this
    simp only [scanAU]
    exact ⟨Nat.le_refl a, Nat.le_refl a, fun i h1 h2 => by omega,
      fun h => by omega⟩
  | succ n ih =>
    intro l a b pivot hab hfuel
    unfold scanAU
    split_ifs with h
    · obtain ⟨h1, h2⟩ := h
      obtain ⟨g1, g2, g3, g4⟩ := ih l (a + 1) b pivot (by omega) (by omega)
      refine ⟨by omega, g2, ?_, g4⟩
      intro i hi1 hi2
      rcases Nat.eq_or_lt_of_le hi1 with rfl | hlt
      · exact h2
      · exact g3 i (by omega) hi2
    · refine ⟨Nat.le_refl a, hab, fun i h1 h2 => by omega, fun hc => ?_⟩
      rw [not_and_or] at h
      rcases h with h | h
      · omega
      · exact Bool.eq_false_iff.mpr h

end GoSortScans

/-! ### Key-value reasoning helpers -/

section GoSortKeys

variable {α : Type} [Inhabited α] (key : α → Bool)

theorem kAt_lswap_fst {l : List α} {i j : Nat} (hi : i < l.length)
    (hj : j < l.length) : kAt key (lswap l i j) i = kAt key l j := by
  unfold kAt
  rw [getD_lswap l hi hj, if_pos rfl]

theorem kAt_lswap_snd {l : List α} {i j : Nat} (hi : i < l.length)
    (hj : j < l.length) : kAt key (lswap l i j) j = kAt key l i := by
  unfold kAt
  rw [getD_lswap l hi hj]
  by_cases h : j = i
  · subst h
    rw [if_pos rfl]
  · rw [if_neg h, if_pos rfl]

theorem kAt_lswap_other {l : List α} {i j k : Nat} (h1 : k ≠ i)
    (h2 : k ≠ j) : kAt key (lswap l i j) k = kAt key l k := by
  unfold kAt
  rw [getD_lswap_ne l h1 h2]

/-- `sLess` at two positions untouched by a swap. -/
theorem sLess_lswap_other {l : List α} {i j x y : Nat}
    (hx1 : x ≠ i) (hx2 : x ≠ j) (hy1 : y ≠ i) (hy2 : y ≠ j) :
    sLess key (lswap l i j) x y = sLess key l x y := by
  unfold sLess
  rw [kAt_lswap_other key hx1 hx2, kAt_lswap_other key hy1 hy2]

/-- `sLess` and `kAt` are stable under any function that leaves the two
positions' values unchanged (framing). -/
theorem sLess_congr {l l' : List α} {x y : Nat}
    (hx : l'.getD x default = l.getD x default)
    (hy : l'.getD y default = l.getD y default) :
    sLess key l' x y = sLess key l x y := by
  unfold sLess kAt
  rw [hx, hy]

theorem kAt_congr {l l' : List α} {x : Nat}
    (hx : l'.getD x default = l.getD x default) :
    kAt key l' x = kAt key l x := by
  unfold kAt
  rw [hx]

end GoSortKeys

/-! ### medianOfThree -/

section GoSortMedian

variable {α : Type} [Inhabited α] (key : α → Bool)

/-- `medianOfThree(data, m1, m0, m2)` establishes
`data[m0] <= data[m1] <= data[m2]` (in the sort's order, `x ≤ y` is the
implication `key y → key x`) and touches only the three positions. -/
theorem medianOfThreeGo_spec {l : List α} {m1 m0 m2 : Nat}
    (h1 : m1 < l.length) (h0 : m0 < l.length) (h2 : m2 < l.length)
    (hne10 : m1 ≠ m0) (hne12 : m1 ≠ m2) (hne02 : m0 ≠ m2) :
    (kAt key (medianOfThreeGo key l m1 m0 m2) m1 = true →
      kAt key (medianOfThreeGo key l m1 m0 m2) m0 = true) ∧
    (kAt key (medianOfThreeGo key l m1 m0 m2) m2 = true →
      kAt key (medianOfThreeGo key l m1 m0 m2) m1 = true) := by
  unfold medianOfThreeGo
  dsimp only
  have e1 : (lswap l m1 m0).length = l.length := length_lswap_eq l m1 m0
  split_ifs with a1 a2 a3 a4 a5 <;>
    simp only [sLess, Bool.and_eq_true, Bool.not_eq_true'] at * <;>
    constructor <;>
    intro hk <;>
    simp_all [kAt_lswap_fst key, kAt_lswap_snd key,
      kAt_lswap_other key, length_lswap_eq, h1, h0, h2,
      Ne.symm hne10, Ne.symm hne12, Ne.symm hne02, hne10, hne12, hne02]

/-- `medianOfThree` touches only its three argument positions. -/
theorem medianOfThreeGo_frame (l : List α) (m1 m0 m2 k : Nat)
    (hk1 : k ≠ m1) (hk0 : k ≠ m0) (hk2 : k ≠ m2) :
    (medianOfThreeGo key l m1 m0 m2).getD k default = l.getD k default := by
  unfold medianOfThreeGo
  dsimp only
  split_ifs <;>
    (try rw [getD_lswap_ne _ hk1 hk0]) <;>
    (try rw [getD_lswap_ne _ hk2 hk1]) <;>
    (try rw [getD_lswap_ne _ hk1 hk0]) <;>
    rfl

end GoSortMedian

/-! ### The partition loops -/

section GoSortPart

variable {α : Type} [Inhabited α] (key : α → Bool)

theorem partLoop_spec :
    ∀ (fuel : Nat) (l : List α) (b c pivot bLo cap : Nat)
      (l' : List α) (b' c' : Nat),
      partLoop key fuel l b c pivot = (l', b', c') →
      pivot < bLo → bLo ≤ b → b ≤ c → c ≤ cap → cap ≤ l.length →
      c - b < 2 * fuel →
      (∀ i, bLo ≤ i → i < b → sLess key l pivot i = false) →
      (∀ i, c ≤ i → i < cap → sLess key l pivot i = true) →
      l'.Perm l ∧
      (∀ k, k < b ∨ c ≤ k → l'.getD k default = l.getD k default) ∧
      b ≤ b' ∧ b' = c' ∧ c' ≤ c ∧
      (∀ i, bLo ≤ i → i < b' → sLess key l' pivot i = false) ∧
      (∀ i, c' ≤ i → i < cap → sLess key l' pivot i = true) := by
  intro fuel
  induction fuel with
  | zero =>
    intro l b c pivot bLo cap l' b' c' heq hpb hbb hbc hccap hlen hfuel H2 H3
    omega
  | succ n ih =>
    intro l b c pivot bLo cap l' b' c' heq hpb hbb hbc hccap hlen hfuel H2 H3
    unfold partLoop at heq
    dsimp only at heq
    obtain ⟨sb1, sb2, sb3, sb4⟩ :=
      scanB_spec key (c + 1) l b c pivot hbc (by omega)
    set b1 := scanB key (c + 1) l b c pivot with hb1
    obtain ⟨sc1, sc2, sc3, sc4⟩ :=
      scanC_spec key (c + 1) l b1 c pivot sb2 (by omega)
    set c1 := scanC key (c + 1) l b1 c pivot with hc1
    by_cases hexit : b1 ≥ c1
    · rw [if_pos hexit] at heq
      simp only [Prod.mk.injEq] at heq
      obtain ⟨rfl, rfl, rfl⟩ := heq
      refine ⟨List.Perm.refl l, fun k hk => rfl, sb1, by omega, sc2,
        ?_, ?_⟩
      · intro i hi1 hi2
        by_cases hib : i < b
        · exact H2 i hi1 hib
        · exact sb3 i (by omega) hi2
      · intro i hi1 hi2
        by_cases hic : c ≤ i
        · exact H3 i hic hi2
        · exact sc3 i hi1 (by omega)
    · rw [if_neg hexit] at heq
      have hlt : b1 < c1 := by omega
      have hstop_b : sLess key l pivot b1 = true := sb4 (by omega)
      have hstop_c : sLess key l pivot (c1 - 1) = false := sc4 (by omega)
      have hsep : b1 < c1 - 1 := by
        rcases Nat.lt_or_ge b1 (c1 - 1) with h | h
        · exact h
        · have : b1 = c1 - 1 := by omega
          rw [this] at hstop_b
          rw [hstop_b] at hstop_c
          exact absurd hstop_c (by simp)
      have hb1len : b1 < l.length := by omega
      have hc1len : c1 - 1 < l.length := by omega
      have hswap_b1 : sLess key (lswap l b1 (c1 - 1)) pivot b1 =
          sLess key l pivot (c1 - 1) := by
        unfold sLess
        rw [kAt_lswap_other key (show pivot ≠ b1 by omega)
            (show pivot ≠ c1 - 1 by omega),
          kAt_lswap_fst key hb1len hc1len]
      have hswap_c1 : sLess key (lswap l b1 (c1 - 1)) pivot (c1 - 1) =
          sLess key l pivot b1 := by
        unfold sLess
        rw [kAt_lswap_other key (show pivot ≠ b1 by omega)
            (show pivot ≠ c1 - 1 by omega),
          kAt_lswap_snd key hb1len hc1len]
      have H2' : ∀ i, bLo ≤ i → i < b1 + 1 →
          sLess key (lswap l b1 (c1 - 1)) pivot i = false := by
        intro i hi1 hi2
        by_cases hib : i = b1
        · subst hib
          rw [hswap_b1]
          exact hstop_c
        · rw [sLess_lswap_other key (show pivot ≠ b1 by omega)
            (show pivot ≠ c1 - 1 by omega) hib (by omega)]
          by_cases hib2 : i < b
          · exact H2 i hi1 hib2
          · exact sb3 i (by omega) (by omega)
      have H3' : ∀ i, c1 - 1 ≤ i → i < cap →
          sLess key (lswap l b1 (c1 - 1)) pivot i = true := by
        intro i hi1 hi2
        by_cases hic : i = c1 - 1
        · subst hic
          rw [hswap_c1]
          exact hstop_b
        · rw [sLess_lswap_other key (show pivot ≠ b1 by omega)
            (show pivot ≠ c1 - 1 by omega) (by omega) hic]
          by_cases hic2 : c ≤ i
          · exact H3 i hic2 hi2
          · exact sc3 i (by omega) (by omega)
      obtain ⟨g1, g2, g3, g4, g5, g6, g7⟩ := ih (lswap l b1 (c1 - 1))
        (b1 + 1) (c1 - 1) pivot bLo cap l' b' c' heq hpb (by omega)
        (by omega) (by omega) (by rw [length_lswap_eq]; exact hlen)
        (by omega) H2' H3'
      refine ⟨g1.trans (lswap_perm l b1 (c1 - 1)), ?_, by omega, g4,
        by omega, g6, g7⟩
      intro k hk
      rw [g2 k (by omega)]
      exact getD_lswap_ne l (by omega) (by omega)

theorem protectLoop_spec :
    ∀ (fuel : Nat) (l : List α) (a b pivot aLo cap2 : Nat)
      (l' : List α) (a' b' : Nat),
      protectLoop key fuel l a b pivot = (l', a', b') →
      pivot < aLo → aLo ≤ a → a ≤ b → b ≤ cap2 → cap2 ≤ l.length →
      b - a < 2 * fuel →
      (∀ i, aLo ≤ i → i < b → sLess key l pivot i = false) →
      (∀ i, b ≤ i → i < cap2 →
        sLess key l pivot i = false ∧ sLess key l i pivot = false) →
      l'.Perm l ∧
      (∀ k, k < a ∨ b ≤ k → l'.getD k default = l.getD k default) ∧
      a ≤ a' ∧ a' = b' ∧ b' ≤ b ∧
      (∀ i, aLo ≤ i → i < b' → sLess key l' pivot i = false) ∧
      (∀ i, b' ≤ i → i < cap2 →
        sLess key l' pivot i = false ∧ sLess key l' i pivot = false) := by
  intro fuel
  induction fuel with
  | zero =>
    intro l a b pivot aLo cap2 l' a' b' heq hpa haa hab hbcap hlen hfuel
      H12 H4
    omega
  | succ n ih =>
    intro l a b pivot aLo cap2 l' a' b' heq hpa haa hab hbcap hlen hfuel
      H12 H4
    unfold protectLoop at heq
    dsimp only at heq
    obtain ⟨sd1, sd2, sd3, sd4⟩ :=
      scanBD_spec key (b + 1) l a b pivot hab (by omega)
    set b1 := scanBD key (b + 1) l a b pivot with hb1
    obtain ⟨su1, su2, su3, su4⟩ :=
      scanAU_spec key (b1 + 1) l a b1 pivot sd1 (by omega)
    set a1 := scanAU key (b1 + 1) l a b1 pivot with ha1
    have hmid1 : ∀ i, b1 ≤ i → i < cap2 →
        sLess key l pivot i = false ∧ sLess key l i pivot = false := by
      intro i hi1 hi2
      by_cases hib : b ≤ i
      · exact H4 i hib hi2
      · exact ⟨H12 i (by omega) (by omega), sd3 i hi1 (by omega)⟩
    by_cases hexit : a1 ≥ b1
    · rw [if_pos hexit] at heq
      simp only [Prod.mk.injEq] at heq
      obtain ⟨rfl, rfl, rfl⟩ := heq
      refine ⟨List.Perm.refl l, fun k hk => rfl, su1, by omega, sd2,
        ?_, hmid1⟩
      intro i hi1 hi2
      exact H12 i hi1 (by omega)
    · rw [if_neg hexit] at heq
      have hlt : a1 < b1 := by omega
      have hstop_a : sLess key l a1 pivot = false := su4 (by omega)
      have hstop_b : sLess key l (b1 - 1) pivot = true := sd4 (by omega)
      have hsep : a1 < b1 - 1 := by
        rcases Nat.lt_or_ge a1 (b1 - 1) with h | h
        · exact h
        · have : a1 = b1 - 1 := by omega
          rw [this] at hstop_a
          rw [hstop_a] at hstop_b
          exact absurd hstop_b (by simp)
      have ha1len : a1 < l.length := by omega
      have hb1len : b1 - 1 < l.length := by omega
      have H12' : ∀ i, aLo ≤ i → i < b1 - 1 →
          sLess key (lswap l a1 (b1 - 1)) pivot i = false := by
        intro i hi1 hi2
        by_cases hia : i = a1
        · subst hia
          unfold sLess
          rw [kAt_lswap_other key (show pivot ≠ a1 by omega)
              (show pivot ≠ b1 - 1 by omega),
            kAt_lswap_fst key ha1len hb1len]
          have h2 : kAt key l pivot = false := by
            have h := hstop_b
            unfold sLess at h
            rcases Bool.and_eq_true_iff.mp h with ⟨h1', h2'⟩
            simpa using h2'
          simp [h2]
        · rw [sLess_lswap_other key (show pivot ≠ a1 by omega)
            (show pivot ≠ b1 - 1 by omega) hia (by omega)]
          exact H12 i hi1 (by omega)
      have H4' : ∀ i, b1 - 1 ≤ i → i < cap2 →
          sLess key (lswap l a1 (b1 - 1)) pivot i = false ∧
          sLess key (lswap l a1 (b1 - 1)) i pivot = false := by
        intro i hi1 hi2
        by_cases hib : i = b1 - 1
        · subst hib
          constructor
          · unfold sLess
            rw [kAt_lswap_other key (show pivot ≠ a1 by omega)
                (show pivot ≠ b1 - 1 by omega),
              kAt_lswap_snd key ha1len hb1len]
            have h1 : sLess key l pivot a1 = false :=
              H12 a1 (by omega) (by omega)
            unfold sLess at h1
            simpa using h1
          · unfold sLess
            rw [kAt_lswap_other key (show pivot ≠ a1 by omega)
                (show pivot ≠ b1 - 1 by omega),
              kAt_lswap_snd key ha1len hb1len]
            have h1 : sLess key l a1 pivot = false := hstop_a
            unfold sLess at h1
            simpa using h1
        · constructor
          · rw [sLess_lswap_other key (show pivot ≠ a1 by omega)
              (show pivot ≠ b1 - 1 by omega) (by omega) hib]
            exact (hmid1 i (by omega) hi2).1
          · rw [sLess_lswap_other key (by omega : (i : Nat) ≠ a1)
              hib (show pivot ≠ a1 by omega)
              (show pivot ≠ b1 - 1 by omega)]
            exact (hmid1 i (by omega) hi2).2
      obtain ⟨g1, g2, g3, g4, g5, g6, g7⟩ := ih (lswap l a1 (b1 - 1))
        (a1 + 1) (b1 - 1) pivot aLo cap2 l' a' b' heq hpa (by omega)
        (by omega) (by omega) (by rw [length_lswap_eq]; exact hlen)
        (by omega) H12' H4'
      refine ⟨g1.trans (lswap_perm l a1 (b1 - 1)), ?_, by omega, g4,
        by omega, g6, g7⟩
      intro k hk
      rw [g2 k (by omega)]
      exact getD_lswap_ne l (by omega) (by omega)

end GoSortPart

/-! ### The duplicate-protection stage -/

section GoSortDup

variable {α : Type} [Inhabited α] (key : α → Bool)

theorem sLess_asymm {l : List α} {i j : Nat}
    (h : sLess key l i j = true) : sLess key l j i = false := by
  unfold sLess at *
  rcases Bool.and_eq_true_iff.mp h with ⟨h1, h2⟩
  simp only [Bool.not_eq_true'] at h2
  simp [h1, h2]

/-- The region invariant carried through the duplicate-protection tests:
`[lo+1, bb)` at most the pivot value (at index `lo`), `[bb, cc)` equal to
it, `[cc, hi)` at least it. -/
def DupInv (l : List α) (lo hi bb cc : Nat) : Prop :=
  (∀ i, lo + 1 ≤ i → i < bb → sLess key l lo i = false) ∧
  (∀ i, bb ≤ i → i < cc →
    sLess key l lo i = false ∧ sLess key l i lo = false) ∧
  (∀ i, cc ≤ i → i < hi → sLess key l i lo = false)

theorem dup23_spec (l1 : List α) (b d lo hi m a cc1 : Nat)
    (hlen : hi ≤ l1.length)
    (ha : lo + 1 ≤ a) (hab : a ≤ b) (hb : b ≤ hi - 1)
    (hmb : m < b - 1) (hmlo : lo + 6 ≤ m) (hblo : lo + 10 ≤ b)
    (hcc : b ≤ cc1) (hcchi : cc1 ≤ hi)
    (R1 : ∀ i, lo + 1 ≤ i → i < a → sLess key l1 i lo = true)
    (hinv : DupInv key l1 lo hi b cc1) :
    ∀ l2 b2 d2, dup23 key l1 b d lo m = (l2, b2, d2) →
      l2.Perm l1 ∧
      (∀ k, k < lo + 1 ∨ hi ≤ k → l2.getD k default = l1.getD k default) ∧
      a ≤ b2 ∧ b2 ≤ b ∧
      DupInv key l2 lo hi b2 cc1 := by
  intro l2 b2 d2 heq
  obtain ⟨I1, I2, I3⟩ := hinv
  unfold dup23 at heq
  dsimp only at heq
  -- stage 2: possibly decrement b
  have stage2 : ∀ bb dx dy, a ≤ bb → bb ≤ b → b - 1 ≤ bb → lo + 9 ≤ bb →
      (∀ i, bb ≤ i → i < cc1 →
        sLess key l1 lo i = false ∧ sLess key l1 i lo = false) →
      (if sLess key l1 m lo = true then (l1, bb, dx)
        else (lswap l1 m (bb - 1), bb - 1, dy)) = (l2, b2, d2) →
      l2.Perm l1 ∧
      (∀ k, k < lo + 1 ∨ hi ≤ k → l2.getD k default = l1.getD k default) ∧
      a ≤ b2 ∧ b2 ≤ b ∧ DupInv key l2 lo hi b2 cc1 := by
    intro bb dx dy habb hbbb hbbge hblo9 Imid heq2
    have hmbb : m ≤ bb - 1 := by omega
    split_ifs at heq2 with hc3
    · -- data[m] < pivot: leave everything alone
      simp only [Prod.mk.injEq] at heq2
      obtain ⟨rfl, rfl, -⟩ := heq2
      exact ⟨List.Perm.refl l1, fun k hk => rfl, habb, hbbb,
        fun i h1 h2 => I1 i h1 (by omega), Imid, I3⟩
    · -- data[m] >= pivot, hence m >= a and data[m] = pivot; swap
      have hc3f : sLess key l1 m lo = false := by
        simpa using hc3
      have hma : a ≤ m := by
        by_contra hma
        have := R1 m (by omega) (by omega)
        rw [this] at hc3f
        exact Bool.noConfusion hc3f
      have hmlep : sLess key l1 lo m = false :=
        I1 m (by omega) (by omega)
      have hbb1le : sLess key l1 lo (bb - 1) = false :=
        I1 (bb - 1) (by omega) (by omega)
      have hmlen : m < l1.length := by omega
      have hbb1len : bb - 1 < l1.length := by omega
      simp only [Prod.mk.injEq] at heq2
      obtain ⟨rfl, rfl, -⟩ := heq2
      have hgm : ∀ x, x ≠ m → x ≠ bb - 1 →
          (lswap l1 m (bb - 1)).getD x default = l1.getD x default :=
        fun x h1 h2 => getD_lswap_ne l1 h1 h2
      refine ⟨lswap_perm l1 m (bb - 1), ?_, by omega, by omega,
        ?_, ?_, ?_⟩
      · intro k hk
        exact hgm k (by omega) (by omega)
      · intro i h1 h2
        by_cases him : i = m
        · subst him
          unfold sLess
          rw [kAt_lswap_other key (show lo ≠ i by omega)
              (show lo ≠ bb - 1 by omega),
            kAt_lswap_fst key hmlen hbb1len]
          unfold sLess at hbb1le
          simpa using hbb1le
        · rw [sLess_lswap_other key (show lo ≠ m by omega)
            (show lo ≠ bb - 1 by omega) him (by omega)]
          exact I1 i h1 (by omega)
      · intro i h1 h2
        by_cases hib : i = bb - 1
        · subst hib
          constructor
          · unfold sLess
            rw [kAt_lswap_other key (show lo ≠ m by omega)
                (show lo ≠ bb - 1 by omega),
              kAt_lswap_snd key hmlen hbb1len]
            unfold sLess at hmlep
            simpa using hmlep
          · unfold sLess
            rw [kAt_lswap_other key (show lo ≠ m by omega)
                (show lo ≠ bb - 1 by omega),
              kAt_lswap_snd key hmlen hbb1len]
            unfold sLess at hc3f
            simpa using hc3f
        · have hge : bb ≤ i := by omega
          rw [sLess_lswap_other key (show lo ≠ m by omega)
              (show lo ≠ bb - 1 by omega) (by omega) hib,
            sLess_lswap_other key (by omega : i ≠ m) hib
              (show lo ≠ m by omega) (show lo ≠ bb - 1 by omega)]
          exact Imid i hge h2
      · intro i h1 h2
        rw [sLess_lswap_other key (by omega : i ≠ m)
            (by omega : i ≠ bb - 1) (show lo ≠ m by omega)
            (show lo ≠ bb - 1 by omega)]
        exact I3 i h1 h2
  by_cases hc2 : sLess key l1 (b - 1) lo = true
  · -- data[b-1] < pivot: b stays put
    rw [if_pos hc2] at heq
    exact stage2 b d (d + 1) hab (Nat.le_refl b) (by omega) (by omega)
      I2 heq
  · -- data[b-1] >= pivot: b-1 is at least a, its value equals the pivot
    have hc2f : sLess key l1 (b - 1) lo = false := by
      simpa using hc2
    have hb1a : a ≤ b - 1 := by
      by_contra hb1a
      have := R1 (b - 1) (by omega) (by omega)
      rw [this] at hc2f
      exact Bool.noConfusion hc2f
    have hb1eq : sLess key l1 lo (b - 1) = false :=
      I1 (b - 1) (by omega) (by omega)
    rw [if_neg hc2] at heq
    refine stage2 (b - 1) (d + 1) (d + 1 + 1) hb1a (by omega) (by omega)
      (by omega) ?_ heq
    intro i h1 h2
    by_cases hib : i = b - 1
    · subst hib
      exact ⟨hb1eq, hc2f⟩
    · exact I2 i (by omega) h2

theorem dupStage_spec (l : List α) (b lo hi m a : Nat)
    (hm : m = (lo + hi) / 2) (h12 : 12 < hi - lo) (hlen : hi ≤ l.length)
    (ha : lo + 1 ≤ a) (hab : a ≤ b) (hb : b ≤ hi - 1)
    (R1 : ∀ i, lo + 1 ≤ i → i < a → sLess key l i lo = true)
    (R2 : ∀ i, a ≤ i → i < b → sLess key l lo i = false)
    (R3 : ∀ i, b ≤ i → i < hi - 1 → sLess key l lo i = true)
    (Rhi : sLess key l (hi - 1) lo = false) :
    ∀ l' b' c' prot, dupStage key l b b lo hi m = (l', b', c', prot) →
      l'.Perm l ∧
      (∀ k, k < lo + 1 ∨ hi ≤ k → l'.getD k default = l.getD k default) ∧
      a ≤ b' ∧ b' ≤ b ∧ b ≤ c' ∧ c' ≤ hi ∧
      DupInv key l' lo hi b' c' := by
  intro l' b' c' prot heq
  have hR12 : ∀ i, lo + 1 ≤ i → i < b → sLess key l lo i = false := by
    intro i hi1 hi2
    by_cases hia : i < a
    · exact sLess_asymm key (R1 i hi1 hia)
    · exact R2 i (by omega) hi2
  have hR3ge : ∀ i, b ≤ i → i < hi → sLess key l i lo = false := by
    intro i hi1 hi2
    by_cases hih : i < hi - 1
    · exact sLess_asymm key (R3 i hi1 hih)
    · have : i = hi - 1 := by omega
      subst this
      exact Rhi
  unfold dupStage at heq
  dsimp only at heq
  by_cases hbr : ¬ (hi - b < 5) ∧ hi - b < (hi - lo) / 4
  case neg =>
    rw [if_neg hbr] at heq
    simp only [Prod.mk.injEq] at heq
    obtain ⟨rfl, rfl, rfl, rfl⟩ := heq
    exact ⟨List.Perm.refl l, fun k hk => rfl, hab, Nat.le_refl b,
      Nat.le_refl b, by omega, hR12, fun i h1 h2 => by omega, hR3ge⟩
  rw [if_pos hbr] at heq
  obtain ⟨hbr1, hbr2⟩ := hbr
  have hblo : lo + 10 ≤ b := by omega
  have hmb : m < b - 1 := by omega
  have hmlo : lo + 6 ≤ m := by omega
  have hmhi : m < hi - 1 := by omega
  have hblen : b < l.length := by omega
  have hhilen : hi - 1 < l.length := by omega
  by_cases hc1 : ¬ sLess key l lo (hi - 1) = true
  · rw [if_pos hc1] at heq
    dsimp only at heq
    have hinv1 : DupInv key (lswap l b (hi - 1)) lo hi b (b + 1) := by
      refine ⟨?_, ?_, ?_⟩
      · intro i h1 h2
        rw [sLess_congr key (getD_lswap_ne l (by omega) (by omega))
          (getD_lswap_ne l (by omega) (by omega))]
        exact hR12 i h1 h2
      · intro i h1 h2
        have hib : i = b := by omega
        subst hib
        constructor
        · unfold sLess
          rw [kAt_lswap_other key (show lo ≠ i by omega)
              (show lo ≠ hi - 1 by omega),
            kAt_lswap_fst key hblen hhilen]
          rw [Bool.not_eq_true] at hc1
          unfold sLess at hc1
          simpa using hc1
        · unfold sLess
          rw [kAt_lswap_other key (show lo ≠ i by omega)
              (show lo ≠ hi - 1 by omega),
            kAt_lswap_fst key hblen hhilen]
          unfold sLess at Rhi
          simpa using Rhi
      · intro i h1 h2
        by_cases hih : i = hi - 1
        · subst hih
          by_cases hbh : b = hi - 1
          · omega
          · unfold sLess
            rw [kAt_lswap_other key (show lo ≠ b by omega)
                (show lo ≠ hi - 1 by omega),
              kAt_lswap_snd key hblen hhilen]
            have := hR3ge b (Nat.le_refl b) (by omega)
            unfold sLess at this
            simpa using this
        · rw [sLess_lswap_other key (show i ≠ b by omega)
            (show i ≠ hi - 1 from hih) (show lo ≠ b by omega)
            (show lo ≠ hi - 1 by omega)]
          exact hR3ge i (by omega) h2
    set r := dup23 key (lswap l b (hi - 1)) b 1 lo m with hr
    obtain ⟨l2, b2, d2⟩ := r
    obtain ⟨g1, g2, g3, g4, g5⟩ := dup23_spec key (lswap l b (hi - 1))
      b 1 lo hi m a (b + 1) (by rw [length_lswap_eq]; exact hlen)
      ha hab hb hmb hmlo hblo (by omega) (by omega)
      (fun i h1 h2 => by
        rw [sLess_congr key (getD_lswap_ne l (by omega) (by omega))
          (getD_lswap_ne l (by omega) (by omega))]
        exact R1 i h1 h2)
      hinv1 l2 b2 d2 hr.symm
    dsimp only at heq
    simp only [Prod.mk.injEq] at heq
    obtain ⟨rfl, rfl, rfl, rfl⟩ := heq
    refine ⟨g1.trans (lswap_perm l b (hi - 1)), ?_, g3, g4, by omega,
      by omega, g5⟩
    intro k hk
    rw [g2 k hk]
    exact getD_lswap_ne l (by omega) (by omega)
  · rw [if_neg hc1] at heq
    dsimp only at heq
    have hinv1 : DupInv key l lo hi b b :=
      ⟨hR12, fun i h1 h2 => by omega, hR3ge⟩
    set r := dup23 key l b 0 lo m with hr
    obtain ⟨l2, b2, d2⟩ := r
    obtain ⟨g1, g2, g3, g4, g5⟩ := dup23_spec key l b 0 lo hi m a b
      hlen ha hab hb hmb hmlo hblo (Nat.le_refl b) (by omega)
      R1 hinv1 l2 b2 d2 hr.symm
    dsimp only at heq
    simp only [Prod.mk.injEq] at heq
    obtain ⟨rfl, rfl, rfl, rfl⟩ := heq
    exact ⟨g1, g2, g3, g4, Nat.le_refl b, by omega, g5⟩

end GoSortDup

/-! ### Segment ordering and permutation transfer -/

section GoSortOrder

variable {α : Type} [Inhabited α] (key : α → Bool)

theorem sLess_self (l : List α) (i : Nat) : sLess key l i i = false := by
  unfold sLess
  cases kAt key l i <;> rfl

theorem sLess_eq_false_iff (l : List α) (i j : Nat) :
    sLess key l i j = false ↔
      (kAt key l i = true → kAt key l j = true) := by
  unfold sLess
  cases kAt key l i <;> cases kAt key l j <;> simp

/-- Adjacent-pairs sortedness of the segment `[a, b)`. -/
def SortedAdjSeg (l : List α) (a b : Nat) : Prop :=
  ∀ t, a ≤ t → t + 1 < b → sLess key l (t + 1) t = false

/-- Full sortedness of the segment `[a, b)`: no inversion between any
two positions. -/
def SortedSeg (l : List α) (a b : Nat) : Prop :=
  ∀ i j, a ≤ i → i ≤ j → j < b → sLess key l j i = false

theorem sortedAdjSeg_sortedSeg {l : List α} {a b : Nat}
    (h : SortedAdjSeg key l a b) : SortedSeg key l a b := by
  have aux : ∀ d i, a ≤ i → i + d < b → sLess key l (i + d) i = false := by
    intro d
    induction d with
    | zero =>
      intro i h1 h2
      exact sLess_self key l i
    | succ n ih =>
      intro i h1 h2
      rw [sLess_eq_false_iff]
      intro hk
      have s1 := h (i + n) (by omega) (by omega)
      rw [sLess_eq_false_iff] at s1
      have s2 := ih i h1 (by omega)
      rw [sLess_eq_false_iff] at s2
      exact s2 (s1 hk)
  intro i j h1 h2 h3
  have hj : j = i + (j - i) := by omega
  rw [hj]
  exact aux (j - i) i h1 (by omega)

/-- If `l₂` is a permutation of `l₁` agreeing with it outside `[a, b)`,
every property holding of all values of `l₁` on the segment holds of all
values of `l₂` on the segment. -/
theorem seg_transfer {l₂ l₁ : List α} {a b : Nat} (P : α → Prop)
    (hperm : l₂.Perm l₁)
    (hframe : ∀ k, k < a ∨ b ≤ k → l₂.getD k default = l₁.getD k default)
    (hab : a ≤ b) (hlen : b ≤ l₁.length)
    (hP : ∀ i, a ≤ i → i < b → P (l₁.getD i default)) :
    ∀ i, a ≤ i → i < b → P (l₂.getD i default) := by
  have hlen2 : l₂.length = l₁.length := hperm.length_eq
  have hq : ∀ k, k < a ∨ b ≤ k → l₂[k]? = l₁[k]? := by
    intro k hk
    by_cases hkl : k < l₁.length
    · have h2 : k < l₂.length := by omega
      have hf := hframe k hk
      rw [List.getD_eq_getElem?_getD, List.getD_eq_getElem?_getD,
        List.getElem?_eq_getElem hkl, List.getElem?_eq_getElem h2] at hf
      rw [List.getElem?_eq_getElem hkl, List.getElem?_eq_getElem h2]
      simpa using hf
    · rw [List.getElem?_eq_none (by omega), List.getElem?_eq_none (by omega)]
  have htake : l₂.take a = l₁.take a := by
    apply List.ext_getElem?
    intro k
    by_cases hka : k < a
    · rw [List.getElem?_take, List.getElem?_take, if_pos hka, if_pos hka]
      exact hq k (Or.inl hka)
    · rw [List.getElem?_eq_none, List.getElem?_eq_none]
      · rw [List.length_take]
        omega
      · rw [List.length_take]
        omega
  have hdrop : l₂.drop b = l₁.drop b := by
    apply List.ext_getElem?
    intro k
    rw [List.getElem?_drop, List.getElem?_drop]
    exact hq (b + k) (Or.inr (by omega))
  have hsplit : ∀ x : List α,
      x = x.take a ++ ((x.drop a).take (b - a) ++ x.drop b) := by
    intro x
    conv_lhs => rw [← List.take_append_drop a x]
    congr 1
    conv_lhs => rw [← List.take_append_drop (b - a) (x.drop a)]
    congr 1
    rw [List.drop_drop]
    congr 1
    omega
  have hsp : ((l₂.drop a).take (b - a)).Perm ((l₁.drop a).take (b - a)) := by
    have hp2 : (l₁.take a ++ ((l₂.drop a).take (b - a) ++ l₁.drop b)).Perm
        (l₁.take a ++ ((l₁.drop a).take (b - a) ++ l₁.drop b)) := by
      rw [← hsplit l₁, ← htake, ← hdrop, ← hsplit l₂]
      exact hperm
    have hp3 := (List.perm_append_left_iff (l₁.take a)).mp hp2
    exact (List.perm_append_right_iff (l₁.drop b)).mp hp3
  have hgd : ∀ (x : List α), x.length = l₁.length → ∀ i, a ≤ i → i < b →
      x.getD i default = ((x.drop a).take (b - a)).getD (i - a) default := by
    intro x hx i h1 h2
    rw [List.getD_eq_getElem?_getD, List.getD_eq_getElem?_getD]
    rw [List.getElem?_take, if_pos (show i - a < b - a by omega),
      List.getElem?_drop]
    have : a + (i - a) = i := by omega
    rw [this]
  intro i h1 h2
  rw [hgd l₂ hlen2 i h1 h2]
  have hslen : ((l₂.drop a).take (b - a)).length = b - a := by
    rw [List.length_take, List.length_drop]
    omega
  have hmem : ((l₂.drop a).take (b - a)).getD (i - a) default ∈
      (l₂.drop a).take (b - a) := by
    have hia : i - a < ((l₂.drop a).take (b - a)).length := by omega
    rw [List.getD_eq_getElem _ _ hia]
    exact List.getElem_mem hia
  have hmem1 := hsp.mem_iff.mp hmem
  obtain ⟨n, hn, hval⟩ := List.getElem_of_mem hmem1
  have hslen1 : ((l₁.drop a).take (b - a)).length = b - a := by
    rw [List.length_take, List.length_drop]
    omega
  have : ((l₁.drop a).take (b - a)).getD n default =
      ((l₂.drop a).take (b - a)).getD (i - a) default := by
    rw [List.getD_eq_getElem _ _ hn, hval]
  rw [← this]
  have hg1 := hgd l₁ rfl (a + n) (by omega) (by omega)
  have hn2 : a + n - a = n := by omega
  rw [hn2] at hg1
  rw [← hg1]
  exact hP (a + n) (by omega) (by omega)

end GoSortOrder

/-! ### Shell pass and insertion sort -/

section GoSortIns

variable {α : Type} [Inhabited α] (key : α → Bool)

theorem shellPass_frame :
    ∀ (cnt : Nat) (l : List α) (i k : Nat), 6 ≤ i →
      k < i - 6 ∨ i + cnt ≤ k →
      (shellPass key cnt l i).getD k default = l.getD k default := by
  intro cnt
  induction cnt with
  | zero =>
    intro l i k h6 hk
    rfl
  | succ n ih =>
    intro l i k h6 hk
    unfold shellPass
    rw [ih _ (i + 1) k (by omega) (by omega)]
    split_ifs
    · exact getD_lswap_ne l (by omega) (by omega)
    · rfl

theorem insInner_spec :
    ∀ (fuel : Nat) (l : List α) (j a i : Nat),
      a ≤ j → j ≤ i → i < l.length → j - a ≤ fuel →
      SortedAdjSeg key l a j →
      SortedAdjSeg key l j (i + 1) →
      (a < j → j + 1 ≤ i → sLess key l (j + 1) (j - 1) = false) →
      (insInner key fuel l j a).Perm l ∧
      (∀ k, k < a ∨ i < k →
        (insInner key fuel l j a).getD k default = l.getD k default) ∧
      SortedAdjSeg key (insInner key fuel l j a) a (i + 1) := by
  intro fuel
  induction fuel with
  | zero =>
    intro l j a i haj hji hlen hfuel I1 I2 I3
    have : j = a := by omega
    subst this
    exact ⟨List.Perm.refl l, fun k hk => rfl, I2⟩
  | succ n ih =>
    intro l j a i haj hji hlen hfuel I1 I2 I3
    unfold insInner
    split_ifs with hc
    · obtain ⟨hc1, hc2⟩ := hc
      have hjlen : j < l.length := by omega
      have hj1len : j - 1 < l.length := by omega
      have I1s : SortedAdjSeg key (lswap l j (j - 1)) a (j - 1) := by
        intro t h1 h2
        rw [sLess_lswap_other key (show t + 1 ≠ j by omega)
          (show t + 1 ≠ j - 1 by omega) (show t ≠ j by omega)
          (show t ≠ j - 1 by omega)]
        exact I1 t h1 (by omega)
      have I2s : SortedAdjSeg key (lswap l j (j - 1)) (j - 1) (i + 1) := by
        intro t h1 h2
        by_cases ht1 : t = j - 1
        · subst ht1
          have hts : j - 1 + 1 = j := by omega
          rw [hts]
          unfold sLess
          rw [kAt_lswap_fst key hjlen hj1len,
            kAt_lswap_snd key hjlen hj1len]
          have := sLess_asymm key hc2
          unfold sLess at this
          simpa using this
        · by_cases ht2 : t = j
          · subst ht2
            unfold sLess
            rw [kAt_lswap_other key (show t + 1 ≠ t by omega)
                (show t + 1 ≠ t - 1 by omega),
              kAt_lswap_fst key hjlen hj1len]
            have h3 := I3 hc1 (by omega)
            unfold sLess at h3
            simpa using h3
          · rw [sLess_lswap_other key (show t + 1 ≠ j by omega)
              (show t + 1 ≠ j - 1 by omega) (show t ≠ j by omega)
              (show t ≠ j - 1 by omega)]
            exact I2 t (by omega) h2
      have I3s : a < j - 1 → j - 1 + 1 ≤ i →
          sLess key (lswap l j (j - 1)) (j - 1 + 1) (j - 1 - 1) = false := by
        intro h1 h2
        have hts : j - 1 + 1 = j := by omega
        rw [hts]
        unfold sLess
        rw [kAt_lswap_fst key hjlen hj1len,
          kAt_lswap_other key (show j - 1 - 1 ≠ j by omega)
            (show j - 1 - 1 ≠ j - 1 by omega)]
        have h4 := I1 (j - 1 - 1) (by omega) (by omega)
        have hts2 : j - 1 - 1 + 1 = j - 1 := by omega
        rw [hts2] at h4
        unfold sLess at h4
        simpa using h4
      obtain ⟨q1, q2, q3⟩ := ih (lswap l j (j - 1)) (j - 1) a i (by omega)
        (by omega) (by rw [length_lswap_eq]; exact hlen) (by omega)
        I1s I2s I3s
      refine ⟨q1.trans (lswap_perm l j (j - 1)), ?_, q3⟩
      intro k hk
      rw [q2 k hk]
      exact getD_lswap_ne l (by omega) (by omega)
    · refine ⟨List.Perm.refl l, fun k hk => rfl, ?_⟩
      intro t h1 h2
      by_cases ht1 : t + 1 < j
      · exact I1 t h1 ht1
      · by_cases ht2 : j ≤ t
        · exact I2 t ht2 h2
        · have htj : t + 1 = j := by omega
          rw [not_and_or] at hc
          rcases hc with hc | hc
          · omega
          · have hf : sLess key l j (j - 1) = false := by simpa using hc
            rw [htj, show t = j - 1 by omega]
            exact hf

theorem insOuter_spec :
    ∀ (cnt : Nat) (l : List α) (i a : Nat),
      a < i → i + cnt ≤ l.length →
      SortedAdjSeg key l a i →
      (insOuter key cnt l i a).Perm l ∧
      (∀ k, k < a ∨ i + cnt ≤ k →
        (insOuter key cnt l i a).getD k default = l.getD k default) ∧
      SortedAdjSeg key (insOuter key cnt l i a) a (i + cnt) := by
  intro cnt
  induction cnt with
  | zero =>
    intro l i a hai hlen hs
    exact ⟨List.Perm.refl l, fun k hk => rfl, hs⟩
  | succ n ih =>
    intro l i a hai hlen hs
    unfold insOuter
    obtain ⟨p1, p2, p3⟩ := insInner_spec key i l i a i (Nat.le_of_lt hai)
      (Nat.le_refl i) (by omega) (by omega) hs
      (fun t h1 h2 => absurd h2 (by omega)) (fun h1 h2 => absurd h2 (by omega))
    obtain ⟨q1, q2, q3⟩ := ih (insInner key i l i a) (i + 1) a (by omega)
      (by rw [p1.length_eq]; omega) p3
    have he : i + 1 + n = i + (n + 1) := by omega
    rw [he] at q2 q3
    refine ⟨q1.trans p1, ?_, q3⟩
    intro k hk
    rw [q2 k (by omega)]
    exact p2 k (by omega)

theorem insertionSortGo_spec (l : List α) (a b : Nat)
    (hab : a < b) (hlen : b ≤ l.length) :
    (insertionSortGo key l a b).Perm l ∧
    (∀ k, k < a ∨ b ≤ k →
      (insertionSortGo key l a b).getD k default = l.getD k default) ∧
    SortedAdjSeg key (insertionSortGo key l a b) a b := by
  unfold insertionSortGo
  obtain ⟨p1, p2, p3⟩ := insOuter_spec key (b - (a + 1)) l (a + 1) a
    (by omega) (by omega) (fun t h1 h2 => by omega)
  have he : a + 1 + (b - (a + 1)) = b := by omega
  rw [he] at p2 p3
  exact ⟨p1, p2, p3⟩

end GoSortIns

/-! ### Pivot setup and doPivot -/

section GoSortPivot

variable {α : Type} [Inhabited α] (key : α → Bool)

theorem bool_eq_of_imp {a b : Bool} (h1 : a = true → b = true)
    (h2 : b = true → a = true) : b = a := by
  cases a <;> cases b <;> simp_all

theorem pivotSetup_frame (l : List α) (lo hi m k : Nat)
    (hm : m = (lo + hi) / 2) (h12 : 12 < hi - lo)
    (hk : k < lo ∨ hi ≤ k) :
    (pivotSetup key l lo hi m).getD k default = l.getD k default := by
  have hmlo : lo + 6 ≤ m := by omega
  have hmhi : m + 1 < hi := by omega
  unfold pivotSetup
  dsimp only
  rw [medianOfThreeGo_frame key _ lo m (hi - 1) k (by omega) (by omega)
    (by omega)]
  split_ifs with h40
  · have hs : (hi - lo) / 8 ≥ 5 := by omega
    have hs2 : lo + 2 * ((hi - lo) / 8) < hi := by omega
    have hms : m + (hi - lo) / 8 < hi := by omega
    have hms2 : lo ≤ m - (hi - lo) / 8 := by omega
    rw [medianOfThreeGo_frame key _ (hi - 1) (hi - 1 - (hi - lo) / 8)
        (hi - 1 - 2 * ((hi - lo) / 8)) k (by omega) (by omega) (by omega),
      medianOfThreeGo_frame key _ m (m - (hi - lo) / 8)
        (m + (hi - lo) / 8) k (by omega) (by omega) (by omega),
      medianOfThreeGo_frame key _ lo (lo + (hi - lo) / 8)
        (lo + 2 * ((hi - lo) / 8)) k (by omega) (by omega) (by omega)]
  · rfl

theorem pivotSetup_median (l : List α) (lo hi m : Nat)
    (hm : m = (lo + hi) / 2) (h12 : 12 < hi - lo) (hlen : hi ≤ l.length) :
    sLess key (pivotSetup key l lo hi m) lo m = false ∧
    sLess key (pivotSetup key l lo hi m) (hi - 1) lo = false := by
  have hmlo : lo + 6 ≤ m := by omega
  have hmhi : m + 1 < hi := by omega
  unfold pivotSetup
  dsimp only
  set l0 := (if hi - lo > 40 then
      medianOfThreeGo key
        (medianOfThreeGo key
          (medianOfThreeGo key l lo (lo + (hi - lo) / 8)
            (lo + 2 * ((hi - lo) / 8)))
          m (m - (hi - lo) / 8) (m + (hi - lo) / 8))
        (hi - 1) (hi - 1 - (hi - lo) / 8) (hi - 1 - 2 * ((hi - lo) / 8))
    else l) with hl0
  have hl0len : l0.length = l.length := by
    rw [hl0]
    split_ifs
    · exact ((medianOfThreeGo_perm key _ _ _ _).trans
        ((medianOfThreeGo_perm key _ _ _ _).trans
          (medianOfThreeGo_perm key _ _ _ _))).length_eq
    · rfl
  obtain ⟨g1, g2⟩ := @medianOfThreeGo_spec α _ key l0 lo m (hi - 1)
    (by omega) (by omega) (by omega) (by omega) (by omega) (by omega)
  constructor
  · rw [sLess_eq_false_iff]
    exact g1
  · rw [sLess_eq_false_iff]
    exact g2

theorem pivotSetup_len (l : List α) (lo hi m : Nat) :
    (pivotSetup key l lo hi m).length = l.length :=
  (pivotSetup_perm key l lo hi m).length_eq

/-- `doPivot` partitions `[lo, hi)` into a `≤ p` region, a `= p` region
and a `≥ p` region (in the sort order, `x ≤ y` is the implication
`key y → key x`), touching nothing outside `[lo, hi)`. -/
theorem doPivotGo_spec (l : List α) (lo hi : Nat)
    (h12 : 12 < hi - lo) (hlen : hi ≤ l.length) :
    ∀ l' mlo mhi, doPivotGo key l lo hi = (l', mlo, mhi) →
      l'.Perm l ∧
      (∀ k, k < lo ∨ hi ≤ k → l'.getD k default = l.getD k default) ∧
      lo ≤ mlo ∧ mlo < mhi ∧ mhi ≤ hi ∧
      ∃ p : Bool,
        (∀ i, lo ≤ i → i < mlo → (p = true → kAt key l' i = true)) ∧
        (∀ i, mlo ≤ i → i < mhi → kAt key l' i = p) ∧
        (∀ i, mhi ≤ i → i < hi → (kAt key l' i = true → p = true)) := by
  intro l' mlo mhi heq
  unfold doPivotGo at heq
  dsimp only at heq
  set m := (lo + hi) / 2 with hm
  set l1 := pivotSetup key l lo hi m with hL1
  have hP1 : l1.Perm l := pivotSetup_perm key l lo hi m
  have hl1len : l1.length = l.length := hP1.length_eq
  have hF1 : ∀ k, k < lo ∨ hi ≤ k → l1.getD k default = l.getD k default :=
    fun k hk => pivotSetup_frame key l lo hi m k hm h12 hk
  obtain ⟨hMed1, hMedHi⟩ := pivotSetup_median key l lo hi m hm h12 hlen
  set a := scanA key hi l1 (lo + 1) (hi - 1) lo with hA
  obtain ⟨sa1, sa2, sa3, sa4⟩ := scanA_spec key hi l1 (lo + 1) (hi - 1) lo
    (by omega) (by omega)
  rw [← hA] at sa1 sa2 sa3 sa4
  set r := partLoop key (hi + 1) l1 a (hi - 1) lo with hR
  obtain ⟨l2, b1, c1⟩ := r
  obtain ⟨p1, p2, p3, p4, p5, p6, p7⟩ := partLoop_spec key (hi + 1) l1 a
    (hi - 1) lo (lo + 1) (hi - 1) l2 b1 c1 hR.symm (by omega) sa1 sa2
    (Nat.le_refl (hi - 1)) (by omega) (by omega)
    (fun i h1 h2 => sLess_asymm key (sa3 i h1 h2))
    (fun i h1 h2 => absurd h1 (by omega))
  have hl2len : l2.length = l.length := p1.length_eq.trans hl1len
  have hR1l2 : ∀ i, lo + 1 ≤ i → i < a → sLess key l2 i lo = true := by
    intro i h1 h2
    rw [sLess_congr key (p2 i (Or.inl h2)) (p2 lo (Or.inl (by omega)))]
    exact sa3 i h1 h2
  have hRhil2 : sLess key l2 (hi - 1) lo = false := by
    rw [sLess_congr key (p2 (hi - 1) (Or.inr (Nat.le_refl _)))
      (p2 lo (Or.inl (by omega)))]
    exact hMedHi
  set st := dupStage key l2 b1 c1 lo hi m with hSt
  obtain ⟨l4, b4, c4, prot⟩ := st
  rw [← p4] at hSt
  obtain ⟨d1, d2, d3, d4, d5, d6, d7⟩ := dupStage_spec key l2 b1 lo hi m a
    hm h12 (by omega) (by omega) p3 (by omega) hR1l2
    (fun i h1 h2 => p6 i (by omega) h2)
    (fun i h1 h2 => p7 i (by omega) h2) hRhil2 l4 b4 c4 prot hSt.symm
  have hl4len : l4.length = l.length := d1.length_eq.trans hl2len
  obtain ⟨D1, D2, D3⟩ := d7
  have hF4 : ∀ k, k < lo ∨ hi ≤ k → l4.getD k default = l.getD k default := by
    intro k hk
    rw [d2 k (by omega), p2 k (by omega)]
    exact hF1 k hk
  have final : ∀ (lC : List α) (bF : Nat),
      lC.length = l.length →
      lC.Perm l →
      (∀ k, k < lo ∨ hi ≤ k → lC.getD k default = l.getD k default) →
      lo + 1 ≤ bF → bF ≤ c4 →
      (∀ i, lo + 1 ≤ i → i < bF → sLess key lC lo i = false) →
      (∀ i, bF ≤ i → i < c4 →
        sLess key lC lo i = false ∧ sLess key lC i lo = false) →
      (∀ i, c4 ≤ i → i < hi → sLess key lC i lo = false) →
      ∀ lR, (if lo ≠ bF - 1 then lswap lC lo (bF - 1) else lC) = lR →
      lR.Perm l ∧
      (∀ k, k < lo ∨ hi ≤ k → lR.getD k default = l.getD k default) ∧
      lo ≤ bF - 1 ∧ bF - 1 < c4 ∧ c4 ≤ hi ∧
      ∃ p : Bool,
        (∀ i, lo ≤ i → i < bF - 1 → (p = true → kAt key lR i = true)) ∧
        (∀ i, bF - 1 ≤ i → i < c4 → kAt key lR i = p) ∧
        (∀ i, c4 ≤ i → i < hi → (kAt key lR i = true → p = true)) := by
    intro lC bF hClen hCperm hCframe hbF1 hbFc hRC1 hRC2 hRC3 lR hlR
    have hpmid : ∀ i, bF ≤ i → i < c4 → kAt key lC i = kAt key lC lo := by
      intro i h1 h2
      have h3 := (hRC2 i h1 h2).1
      have h4 := (hRC2 i h1 h2).2
      rw [sLess_eq_false_iff] at h3 h4
      exact bool_eq_of_imp h3 h4
    by_cases hswap : lo ≠ bF - 1
    · rw [if_pos hswap] at hlR
      subst hlR
      have hlolt : lo < bF - 1 := by omega
      have hlo : lo < lC.length := by omega
      have hb1 : bF - 1 < lC.length := by omega
      refine ⟨(lswap_perm lC lo (bF - 1)).trans hCperm, ?_, by omega,
        by omega, by omega, kAt key lC lo, ?_, ?_, ?_⟩
      · intro k hk
        rw [getD_lswap_ne lC (show k ≠ lo by omega)
          (show k ≠ bF - 1 by omega)]
        exact hCframe k hk
      · intro i h1 h2 hp
        by_cases hio : i = lo
        · subst hio
          rw [kAt_lswap_fst key hlo hb1]
          have h3 := hRC1 (bF - 1) (by omega) (by omega)
          rw [sLess_eq_false_iff] at h3
          exact h3 hp
        · rw [kAt_lswap_other key hio (show i ≠ bF - 1 by omega)]
          have h3 := hRC1 i (by omega) (by omega)
          rw [sLess_eq_false_iff] at h3
          exact h3 hp
      · intro i h1 h2
        by_cases hib : i = bF - 1
        · subst hib
          exact kAt_lswap_snd key hlo hb1
        · rw [kAt_lswap_other key (show i ≠ lo by omega) hib]
          exact hpmid i (by omega) h2
      · intro i h1 h2
        rw [kAt_lswap_other key (show i ≠ lo by omega)
          (show i ≠ bF - 1 by omega)]
        have h3 := hRC3 i h1 h2
        rw [sLess_eq_false_iff] at h3
        exact h3
    · rw [if_neg hswap] at hlR
      subst hlR
      have hlo' : lo = bF - 1 := by omega
      refine ⟨hCperm, hCframe, by omega, by omega, by omega,
        kAt key lC lo, ?_, ?_, ?_⟩
      · intro i h1 h2
        exact absurd h2 (by omega)
      · intro i h1 h2
        by_cases hio : i = lo
        · subst hio
          rfl
        · exact hpmid i (by omega) h2
      · intro i h1 h2
        have h3 := hRC3 i h1 h2
        rw [sLess_eq_false_iff] at h3
        exact h3
  cases prot with
  | true =>
    rw [if_pos rfl] at heq
    dsimp only at heq
    set s4 := protectLoop key (hi + 1) l4 a b4 lo with hS4
    obtain ⟨l5, a5, b5⟩ := s4
    obtain ⟨e1, e2, e3, e4, e5, e6, e7⟩ := protectLoop_spec key (hi + 1) l4
      a b4 lo (lo + 1) c4 l5 a5 b5 hS4.symm (by omega) (by omega) d3
      (by omega) (by omega) (by omega) D1 D2
    have hl5len : l5.length = l.length := e1.length_eq.trans hl4len
    have hRC3' : ∀ i, c4 ≤ i → i < hi → sLess key l5 i lo = false := by
      intro i h1 h2
      rw [sLess_congr key (e2 i (Or.inr (by omega))) (e2 lo (Or.inl (by omega)))]
      exact D3 i h1 h2
    have hF5 : ∀ k, k < lo ∨ hi ≤ k →
        l5.getD k default = l.getD k default := by
      intro k hk
      rw [e2 k (by omega)]
      exact hF4 k hk
    dsimp only at heq
    simp only [Prod.mk.injEq] at heq
    obtain ⟨hX, rfl, rfl⟩ := heq
    exact final l5 b5 hl5len (((e1.trans d1).trans p1).trans hP1) hF5
      (by omega) (by omega) e6 e7 hRC3' l' hX
  | false =>
    rw [if_neg Bool.false_ne_true] at heq
    dsimp only at heq
    simp only [Prod.mk.injEq] at heq
    obtain ⟨hX, rfl, rfl⟩ := heq
    exact final l4 b4 hl4len ((d1.trans p1).trans hP1) hF4
      (by omega) (by omega) D1 D2 D3 l' hX

end GoSortPivot

/-! ### Heap sort -/

section GoSortHeap

variable {α : Type} [Inhabited α] (key : α → Bool)

/-- `q` lies in the subtree rooted at `r` of the implicit binary heap
(children of `t` are `2t+1` and `2t+2`). -/
inductive Desc : Nat → Nat → Prop
  | refl (r : Nat) : Desc r r
  | left {r q : Nat} : Desc (2 * r + 1) q → Desc r q
  | right {r q : Nat} : Desc (2 * r + 2) q → Desc r q

theorem Desc.ge {r q : Nat} (h : Desc r q) : r ≤ q := by
  induction h with
  | refl r => exact Nat.le_refl r
  | left h ih => omega
  | right h ih => omega

theorem Desc.parent {a q : Nat} (h : Desc a q) (hne : q ≠ a) :
    1 ≤ q ∧ Desc a ((q - 1) / 2) := by
  induction h with
  | refl r => exact absurd rfl hne
  | @left r q h ih =>
    by_cases hq : q = 2 * r + 1
    · subst hq
      refine ⟨by omega, ?_⟩
      have e : (2 * r + 1 - 1) / 2 = r := by omega
      rw [e]
      exact Desc.refl r
    · obtain ⟨h1, h2⟩ := ih hq
      exact ⟨h1, Desc.left h2⟩
  | @right r q h ih =>
    by_cases hq : q = 2 * r + 2
    · subst hq
      refine ⟨by omega, ?_⟩
      have e : (2 * r + 2 - 1) / 2 = r := by omega
      rw [e]
      exact Desc.refl r
    · obtain ⟨h1, h2⟩ := ih hq
      exact ⟨h1, Desc.right h2⟩

theorem siftDownGo_spec :
    ∀ (fuel : Nat) (l : List α) (root hi first : Nat),
      hi ≤ fuel + root →
      first + hi ≤ l.length →
      (∀ r c, (c = 2 * r + 1 ∨ c = 2 * r + 2) → c < hi → root < r →
        sLess key l (first + r) (first + c) = false) →
      (siftDownGo key fuel l root hi first).Perm l ∧
      (∀ k, (∀ q, Desc root q → q < hi → k ≠ first + q) →
        (siftDownGo key fuel l root hi first).getD k default =
          l.getD k default) ∧
      (∀ r c, (c = 2 * r + 1 ∨ c = 2 * r + 2) → c < hi → root ≤ r →
        sLess key (siftDownGo key fuel l root hi first) (first + r)
          (first + c) = false) := by
  intro fuel
  induction fuel with
  | zero =>
    intro l root hi first hfuel hlen H
    exact ⟨List.Perm.refl l, fun k hk => rfl, fun r c hc hchi hrr =>
      absurd hchi (by omega)⟩
  | succ n ih =>
    intro l root hi first hfuel hlen H
    by_cases hc1 : 2 * root + 1 ≥ hi
    · have hres : siftDownGo key (n + 1) l root hi first = l := by
        unfold siftDownGo
        dsimp only
        rw [if_pos hc1]
      rw [hres]
      refine ⟨List.Perm.refl l, fun k hk => rfl, ?_⟩
      intro r c hc hchi hrr
      rcases Nat.eq_or_lt_of_le hrr with rfl | hlt
      · exact absurd hchi (by omega)
      · exact H r c hc hchi hlt
    · push_neg at hc1
      by_cases hc2 : 2 * root + 1 + 1 < hi ∧
          sLess key l (first + (2 * root + 1)) (first + (2 * root + 1) + 1)
            = true
      · -- the right child is the larger one
        have hkc2 : kAt key l (first + (2 * root + 1 + 1)) = false := by
          have hb2 := hc2.2
          unfold sLess at hb2
          rcases Bool.and_eq_true_iff.mp hb2 with ⟨x1, x2⟩
          rw [Bool.not_eq_true'] at x2
          have e : first + (2 * root + 1) + 1 = first + (2 * root + 1 + 1) :=
            by omega
          rw [e] at x2
          exact x2
        by_cases hc3 : ¬ sLess key l (first + root)
            (first + (2 * root + 1 + 1)) = true
        · have hres : siftDownGo key (n + 1) l root hi first = l := by
            unfold siftDownGo
            dsimp only
            rw [if_neg (by omega), if_pos hc2, if_pos hc3]
          rw [hres]
          have hkroot : kAt key l (first + root) = false := by
            rw [Bool.not_eq_true] at hc3
            unfold sLess at hc3
            rw [hkc2] at hc3
            simpa using hc3
          refine ⟨List.Perm.refl l, fun k hk => rfl, ?_⟩
          intro r c hc hchi hrr
          rcases Nat.eq_or_lt_of_le hrr with rfl | hlt
          · unfold sLess
            rw [hkroot, Bool.false_and]
          · exact H r c hc hchi hlt
        · -- swap with the right child and recurse
          rw [not_not] at hc3
          have hres : siftDownGo key (n + 1) l root hi first =
              siftDownGo key n
                (lswap l (first + root) (first + (2 * root + 1 + 1)))
                (2 * root + 1 + 1) hi first := by
            rw [siftDownGo]
            dsimp only
            rw [if_neg (by omega), if_pos hc2,
              if_neg (not_not_intro hc3)]
          rw [hres]
          have hchhi : 2 * root + 1 + 1 < hi := hc2.1
          have hplen : first + root < l.length := by omega
          have hclen : first + (2 * root + 1 + 1) < l.length := by omega
          have Hrec : ∀ r c, (c = 2 * r + 1 ∨ c = 2 * r + 2) → c < hi →
              2 * root + 1 + 1 < r →
              sLess key (lswap l (first + root) (first + (2 * root + 1 + 1)))
                (first + r) (first + c) = false := by
            intro r c hcc hcchi hrr
            rw [sLess_lswap_other key (by omega) (by omega) (by omega)
              (by omega)]
            exact H r c hcc hcchi (by omega)
          obtain ⟨q1, q2, q3⟩ := ih
            (lswap l (first + root) (first + (2 * root + 1 + 1)))
            (2 * root + 1 + 1) hi first (by omega)
            (by rw [length_lswap_eq]; omega) Hrec
          have hdesc2 : ∀ q, Desc (2 * root + 1 + 1) q → Desc root q := by
            intro q hq
            have e : 2 * root + 1 + 1 = 2 * root + 2 := by omega
            rw [e] at hq
            exact Desc.right hq
          have hrootval : kAt key
              (siftDownGo key n
                (lswap l (first + root) (first + (2 * root + 1 + 1)))
                (2 * root + 1 + 1) hi first) (first + root) = false := by
            unfold kAt
            rw [q2 (first + root) (fun q hq hqhi => by
              have := hq.ge
              omega)]
            have hf := kAt_lswap_fst key hplen hclen
            unfold kAt at hf
            rw [hf]
            exact hkc2
          refine ⟨q1.trans (lswap_perm _ _ _), ?_, ?_⟩
          · intro k hk
            rw [q2 k (fun q hq hqhi => hk q (hdesc2 q hq) hqhi)]
            exact getD_lswap_ne l
              (hk root (Desc.refl root) (by omega))
              (hk (2 * root + 1 + 1) (hdesc2 _ (Desc.refl _)) (by omega))
          · intro r c hcc hcchi hrr
            rcases Nat.eq_or_lt_of_le hrr with rfl | hlt
            · unfold sLess
              rw [hrootval, Bool.false_and]
            · by_cases hrch : 2 * root + 1 + 1 ≤ r
              · exact q3 r c hcc hcchi hrch
              · have hnd : ¬ Desc (2 * root + 1 + 1) c := by
                  intro hd
                  obtain ⟨hd1, hd2⟩ := hd.parent (by omega)
                  have e : (c - 1) / 2 = r := by omega
                  rw [e] at hd2
                  exact absurd hd2.ge (by omega)
                unfold sLess kAt
                rw [q2 (first + r) (fun q hq hqhi => by
                    have := hq.ge
                    omega),
                  q2 (first + c) (fun q hq hqhi => fun hcq => hnd (by
                    have e : c = q := by omega
                    rw [e]
                    exact hq))]
                rw [getD_lswap_ne l (by omega) (by omega),
                  getD_lswap_ne l (by omega) (by omega)]
                have hH := H r c hcc hcchi (by omega)
                unfold sLess kAt at hH
                exact hH
      · -- the left child is the compared one
        by_cases hc3 : ¬ sLess key l (first + root)
            (first + (2 * root + 1)) = true
        · have hres : siftDownGo key (n + 1) l root hi first = l := by
            unfold siftDownGo
            dsimp only
            rw [if_neg (by omega), if_neg hc2, if_pos hc3]
          rw [hres]
          rw [Bool.not_eq_true] at hc3
          refine ⟨List.Perm.refl l, fun k hk => rfl, ?_⟩
          intro r c hc hchi hrr
          rcases Nat.eq_or_lt_of_le hrr with rfl | hlt
          · rcases hc with rfl | rfl
            · exact hc3
            · rw [not_and_or] at hc2
              rcases hc2 with h | h
              · exact absurd hchi (by omega)
              · have h2 : sLess key l (first + (2 * root + 1))
                    (first + (2 * root + 1) + 1) = false := by
                  simpa using h
                have e3 : first + (2 * root + 1) + 1 =
                    first + (2 * root + 2) := by omega
                rw [e3] at h2
                rw [sLess_eq_false_iff] at h2 hc3 ⊢
                exact fun hk => h2 (hc3 hk)
          · exact H r c hc hchi hlt
        · rw [not_not] at hc3
          have hkc2 : kAt key l (first + (2 * root + 1)) = false := by
            unfold sLess at hc3
            rcases Bool.and_eq_true_iff.mp hc3 with ⟨x1, x2⟩
            rw [Bool.not_eq_true'] at x2
            exact x2
          have hres : siftDownGo key (n + 1) l root hi first =
              siftDownGo key n
                (lswap l (first + root) (first + (2 * root + 1)))
                (2 * root + 1) hi first := by
            rw [siftDownGo]
            dsimp only
            rw [if_neg (by omega), if_neg hc2,
              if_neg (not_not_intro hc3)]
          rw [hres]
          have hplen : first + root < l.length := by omega
          have hclen : first + (2 * root + 1) < l.length := by omega
          have Hrec : ∀ r c, (c = 2 * r + 1 ∨ c = 2 * r + 2) → c < hi →
              2 * root + 1 < r →
              sLess key (lswap l (first + root) (first + (2 * root + 1)))
                (first + r) (first + c) = false := by
            intro r c hcc hcchi hrr
            rw [sLess_lswap_other key (by omega) (by omega) (by omega)
              (by omega)]
            exact H r c hcc hcchi (by omega)
          obtain ⟨q1, q2, q3⟩ := ih
            (lswap l (first + root) (first + (2 * root + 1)))
            (2 * root + 1) hi first (by omega)
            (by rw [length_lswap_eq]; omega) Hrec
          have hrootval : kAt key
              (siftDownGo key n
                (lswap l (first + root) (first + (2 * root + 1)))
                (2 * root + 1) hi first) (first + root) = false := by
            unfold kAt
            rw [q2 (first + root) (fun q hq hqhi => by
              have := hq.ge
              omega)]
            have hf := kAt_lswap_fst key hplen hclen
            unfold kAt at hf
            rw [hf]
            exact hkc2
          refine ⟨q1.trans (lswap_perm _ _ _), ?_, ?_⟩
          · intro k hk
            rw [q2 k (fun q hq hqhi => hk q (Desc.left hq) hqhi)]
            exact getD_lswap_ne l
              (hk root (Desc.refl root) (by omega))
              (hk (2 * root + 1) (Desc.left (Desc.refl _)) (by omega))
          · intro r c hcc hcchi hrr
            rcases Nat.eq_or_lt_of_le hrr with rfl | hlt
            · unfold sLess
              rw [hrootval, Bool.false_and]
            · by_cases hrch : 2 * root + 1 ≤ r
              · exact q3 r c hcc hcchi hrch
              · have hnd : ¬ Desc (2 * root + 1) c := by
                  intro hd
                  obtain ⟨hd1, hd2⟩ := hd.parent (by omega)
                  have e : (c - 1) / 2 = r := by omega
                  rw [e] at hd2
                  exact absurd hd2.ge (by omega)
                unfold sLess kAt
                rw [q2 (first + r) (fun q hq hqhi => by
                    have := hq.ge
                    omega),
                  q2 (first + c) (fun q hq hqhi => fun hcq => hnd (by
                    have e : c = q := by omega
                    rw [e]
                    exact hq))]
                rw [getD_lswap_ne l (by omega) (by omega),
                  getD_lswap_ne l (by omega) (by omega)]
                have hH := H r c hcc hcchi (by omega)
                unfold sLess kAt at hH
                exact hH

theorem heap_root_max (l : List α) (first hi : Nat)
    (H : ∀ r c, (c = 2 * r + 1 ∨ c = 2 * r + 2) → c < hi →
      sLess key l (first + r) (first + c) = false) :
    ∀ q, q < hi → sLess key l (first + 0) (first + q) = false := by
  intro q
  induction q using Nat.strong_induction_on with
  | _ q ihq =>
    intro hq
    by_cases h0 : q = 0
    · subst h0
      exact sLess_self key l (first + 0)
    · have hpar : q = 2 * ((q - 1) / 2) + 1 ∨ q = 2 * ((q - 1) / 2) + 2 := by
        omega
      have hp := H ((q - 1) / 2) q hpar hq
      have hih := ihq ((q - 1) / 2) (by omega) (by omega)
      rw [sLess_eq_false_iff] at hp hih ⊢
      exact fun hk => hp (hih hk)

theorem heapBuild_spec :
    ∀ (cnt : Nat) (l : List α) (hi first : Nat),
      first + hi ≤ l.length →
      (∀ r c, (c = 2 * r + 1 ∨ c = 2 * r + 2) → c < hi → cnt ≤ r →
        sLess key l (first + r) (first + c) = false) →
      (heapBuild key cnt l hi first).Perm l ∧
      (∀ k, k < first ∨ first + hi ≤ k →
        (heapBuild key cnt l hi first).getD k default = l.getD k default) ∧
      (∀ r c, (c = 2 * r + 1 ∨ c = 2 * r + 2) → c < hi →
        sLess key (heapBuild key cnt l hi first) (first + r) (first + c)
          = false) := by
  intro cnt
  induction cnt with
  | zero =>
    intro l hi first hlen H
    exact ⟨List.Perm.refl l, fun k hk => rfl,
      fun r c hc hchi => H r c hc hchi (Nat.zero_le r)⟩
  | succ i ih =>
    intro l hi first hlen H
    rw [heapBuild]
    obtain ⟨s1, s2, s3⟩ := siftDownGo_spec key (hi + 1) l i hi first
      (by omega) hlen (fun r c hc hchi hir => H r c hc hchi (by omega))
    obtain ⟨q1, q2, q3⟩ := ih (siftDownGo key (hi + 1) l i hi first) hi first
      (by rw [s1.length_eq]; exact hlen)
      (fun r c hc hchi hir => s3 r c hc hchi (by omega))
    refine ⟨q1.trans s1, ?_, q3⟩
    intro k hk
    rw [q2 k hk]
    exact s2 k (fun q hq hqhi => by omega)

theorem heapPop_spec :
    ∀ (f : Nat) (l : List α) (first n : Nat),
      f ≤ n → first + n ≤ l.length →
      (∀ r c, (c = 2 * r + 1 ∨ c = 2 * r + 2) → c < f →
        sLess key l (first + r) (first + c) = false) →
      (∀ t, f ≤ t → t + 1 < n →
        sLess key l (first + (t + 1)) (first + t) = false) →
      (∀ q t, q < f → f ≤ t → t < n →
        sLess key l (first + t) (first + q) = false) →
      (heapPop key f l first).Perm l ∧
      (∀ k, k < first ∨ first + f ≤ k →
        (heapPop key f l first).getD k default = l.getD k default) ∧
      (∀ t, t + 1 < n →
        sLess key (heapPop key f l first) (first + (t + 1)) (first + t)
          = false) := by
  intro f
  induction f with
  | zero =>
    intro l first n hf hlen H1 H2 H3
    exact ⟨List.Perm.refl l, fun k hk => rfl,
      fun t ht => H2 t (Nat.zero_le t) ht⟩
  | succ i ih =>
    intro l first n hf hlen H1 H2 H3
    rw [heapPop]
    have hflen : first < l.length := by omega
    have hilen : first + i < l.length := by omega
    have hmax := heap_root_max key l first (i + 1) H1
    set l1 := lswap l first (first + i) with hL1
    have hl1len : l1.length = l.length := length_lswap_eq l _ _
    have H1s : ∀ r c, (c = 2 * r + 1 ∨ c = 2 * r + 2) → c < i → 0 < r →
        sLess key l1 (first + r) (first + c) = false := by
      intro r c hc hchi hr
      rw [hL1, sLess_lswap_other key (by omega) (by omega) (by omega)
        (by omega)]
      exact H1 r c hc (by omega)
    obtain ⟨s1, s2, s3⟩ := siftDownGo_spec key (i + 1) l1 0 i first
      (by omega) (by omega) H1s
    set l2 := siftDownGo key (i + 1) l1 0 i first with hL2
    have hl2len : l2.length = l.length := s1.length_eq.trans hl1len
    have hs2 : ∀ k, k < first ∨ first + i ≤ k →
        l2.getD k default = l1.getD k default := by
      intro k hk
      rw [hL2]
      exact s2 k (fun q hq hqhi => by omega)
    have hgd_hi : ∀ j, first + i < j →
        l2.getD j default = l.getD j default := by
      intro j hj
      rw [hs2 j (Or.inr (by omega)), hL1]
      exact getD_lswap_ne l (by omega) (by omega)
    have hk_i : kAt key l2 (first + i) = kAt key l first := by
      unfold kAt
      rw [hs2 (first + i) (Or.inr (Nat.le_refl _)), hL1]
      have hf := kAt_lswap_snd key hflen hilen
      unfold kAt at hf
      exact hf
    have H2n : ∀ t, i ≤ t → t + 1 < n →
        sLess key l2 (first + (t + 1)) (first + t) = false := by
      intro t h1 h2
      by_cases hti : t = i
      · rw [hti]
        have base := H3 0 (i + 1) (by omega) (by omega) (by omega)
        rw [Nat.add_zero] at base
        unfold sLess
        rw [hk_i]
        unfold kAt
        rw [hgd_hi (first + (i + 1)) (by omega)]
        unfold sLess kAt at base
        exact base
      · rw [sLess_congr key (hgd_hi (first + (t + 1)) (by omega))
          (hgd_hi (first + t) (by omega))]
        exact H2 t (by omega) h2
    have H3n : ∀ q t, q < i → i ≤ t → t < n →
        sLess key l2 (first + t) (first + q) = false := by
      intro q t hq h1 h2
      have hAll : kAt key l2 (first + t) = true →
          ∀ j, j < i + 1 → kAt key l (first + j) = true := by
        intro hkt j hj
        by_cases hti : t = i
        · rw [hti, hk_i] at hkt
          have hm := hmax j hj
          rw [sLess_eq_false_iff, Nat.add_zero] at hm
          exact hm hkt
        · have hcr : kAt key l2 (first + t) = kAt key l (first + t) := by
            unfold kAt
            rw [hgd_hi (first + t) (by omega)]
          rw [hcr] at hkt
          have hh := H3 j t hj (by omega) h2
          rw [sLess_eq_false_iff] at hh
          exact hh hkt
      have hc0 : kAt key l2 (first + t) = true →
          ∀ pos, first ≤ pos → pos < first + i → kAt key l1 pos = true := by
        intro hkt pos hp1 hp2
        by_cases hpf : pos = first
        · have hf := kAt_lswap_fst key hflen hilen
          rw [← hL1] at hf
          rw [hpf, hf]
          exact hAll hkt i (by omega)
        · have hother : kAt key l1 pos = kAt key l pos := by
            rw [hL1]
            exact kAt_lswap_other key (by omega) (by omega)
          rw [hother]
          have hj := hAll hkt (pos - first) (by omega)
          have e : first + (pos - first) = pos := by omega
          rw [e] at hj
          exact hj
      rw [sLess_eq_false_iff]
      intro hkt
      have htr := seg_transfer
        (fun x => kAt key l2 (first + t) = true → key x = true)
        s1 hs2 (by omega) (by omega)
        (fun pos hp1 hp2 => fun hkt2 => hc0 hkt2 pos hp1 hp2)
        (first + q) (by omega) (by omega)
      exact htr hkt
    obtain ⟨w1, w2, w3⟩ := ih l2 first n (by omega) (by omega)
      (fun r c hc hchi => s3 r c hc hchi (Nat.zero_le r)) H2n H3n
    refine ⟨w1.trans (s1.trans (lswap_perm l first (first + i))), ?_, w3⟩
    intro k hk
    rw [w2 k (by omega), hs2 k (by omega), hL1]
    exact getD_lswap_ne l (by omega) (by omega)

theorem heapSortGo_spec (l : List α) (a b : Nat)
    (hab : a ≤ b) (hlen : b ≤ l.length) :
    (heapSortGo key l a b).Perm l ∧
    (∀ k, k < a ∨ b ≤ k →
      (heapSortGo key l a b).getD k default = l.getD k default) ∧
    SortedAdjSeg key (heapSortGo key l a b) a b := by
  unfold heapSortGo
  obtain ⟨h1, h2, h3⟩ := heapBuild_spec key ((b - a - 1) / 2 + 1) l (b - a) a
    (by omega) (fun r c hc hchi hcnt => absurd hchi (by omega))
  obtain ⟨w1, w2, w3⟩ := heapPop_spec key (b - a)
    (heapBuild key ((b - a - 1) / 2 + 1) l (b - a) a) a (b - a)
    (Nat.le_refl _) (by rw [h1.length_eq]; omega) h3
    (fun t h1t h2t => absurd h2t (by omega))
    (fun q t hq h1t h2t => absurd h2t (by omega))
  refine ⟨w1.trans h1, ?_, ?_⟩
  · intro k hk
    rw [w2 k (by omega)]
    exact h2 k (by omega)
  · intro t h1t h2t
    have hc := w3 (t - a) (by omega)
    have e1 : a + (t - a + 1) = t + 1 := by omega
    have e2 : a + (t - a) = t := by omega
    rw [e1, e2] at hc
    exact hc

end GoSortHeap

/-! ### The quicksort driver -/

section GoSortQuick

variable {α : Type} [Inhabited α] (key : α → Bool)

theorem sortedSeg_congr {l l' : List α} {a b : Nat}
    (h : ∀ k, a ≤ k → k < b → l'.getD k default = l.getD k default)
    (hs : SortedSeg key l a b) : SortedSeg key l' a b := by
  intro i j h1 h2 h3
  rw [sLess_congr key (h j (by omega) h3) (h i h1 (by omega))]
  exact hs i j h1 h2 h3

theorem quickSortGo_spec :
    ∀ (fuel : Nat) (l : List α) (a b maxDepth : Nat),
      b ≤ l.length → b - a ≤ fuel →
      (quickSortGo key fuel l a b maxDepth).Perm l ∧
      (∀ k, k < a ∨ b ≤ k →
        (quickSortGo key fuel l a b maxDepth).getD k default =
          l.getD k default) ∧
      SortedSeg key (quickSortGo key fuel l a b maxDepth) a b := by
  intro fuel
  induction fuel with
  | zero =>
    intro l a b maxDepth hlen hfuel
    exact ⟨List.Perm.refl l, fun k hk => rfl,
      fun i j h1 h2 h3 => absurd h3 (by omega)⟩
  | succ n ih =>
    intro l a b maxDepth hlen hfuel
    by_cases h12 : b - a > 12
    · by_cases hmd : maxDepth = 0
      · have hres : quickSortGo key (n + 1) l a b maxDepth =
            heapSortGo key l a b := by
          rw [quickSortGo]
          rw [if_pos h12, if_pos hmd]
        rw [hres]
        obtain ⟨h1, h2, h3⟩ := heapSortGo_spec key l a b (by omega) hlen
        exact ⟨h1, h2, sortedAdjSeg_sortedSeg key h3⟩
      · set r := doPivotGo key l a b with hr
        obtain ⟨l1, mlo, mhi⟩ := r
        obtain ⟨g1, g2, g3, g4, g5, p, gp1, gp2, gp3⟩ :=
          doPivotGo_spec key l a b (by omega) hlen l1 mlo mhi hr.symm
        have hl1len : l1.length = l.length := g1.length_eq
        have hres : quickSortGo key (n + 1) l a b maxDepth =
            (if mlo - a < b - mhi then
              quickSortGo key n (quickSortGo key n l1 a mlo (maxDepth - 1))
                mhi b (maxDepth - 1)
            else
              quickSortGo key n (quickSortGo key n l1 mhi b (maxDepth - 1))
                a mlo (maxDepth - 1)) := by
          rw [quickSortGo]
          dsimp only
          rw [if_pos h12, if_neg hmd, ← hr]
        have combine : ∀ (ls : List α),
            ls.Perm l1 →
            (∀ k, (k < a ∨ mlo ≤ k) → (k < mhi ∨ b ≤ k) →
              ls.getD k default = l1.getD k default) →
            SortedSeg key ls a mlo →
            SortedSeg key ls mhi b →
            (∀ i, a ≤ i → i < mlo → (p = true → kAt key ls i = true)) →
            (∀ i, mlo ≤ i → i < mhi → kAt key ls i = p) →
            (∀ i, mhi ≤ i → i < b → (kAt key ls i = true → p = true)) →
            SortedSeg key ls a b := by
          intro ls hperm hframe hs1 hs2 hr1 hr2 hr3
          intro i j h1 h2 h3
          rw [sLess_eq_false_iff]
          intro hkj
          by_cases hi1 : i < mlo
          · by_cases hj1 : j < mlo
            · have hss := hs1 i j h1 h2 hj1
              rw [sLess_eq_false_iff] at hss
              exact hss hkj
            · have hpj : p = true := by
                by_cases hj2 : j < mhi
                · rw [← hr2 j (by omega) hj2]
                  exact hkj
                · exact hr3 j (by omega) h3 hkj
              exact hr1 i h1 hi1 hpj
          · by_cases hi2 : i < mhi
            · have hki : kAt key ls i = p := hr2 i (by omega) hi2
              by_cases hj2 : j < mhi
              · rw [hki, ← hr2 j (by omega) hj2]
                exact hkj
              · rw [hki]
                exact hr3 j (by omega) h3 hkj
            · have hss := hs2 i j (by omega) h2 h3
              rw [sLess_eq_false_iff] at hss
              exact hss hkj
        by_cases hside : mlo - a < b - mhi
        · rw [hres, if_pos hside]
          obtain ⟨q1, q2, q3⟩ := ih l1 a mlo (maxDepth - 1)
            (by omega) (by omega)
          set l2 := quickSortGo key n l1 a mlo (maxDepth - 1) with hL2
          obtain ⟨w1, w2, w3⟩ := ih l2 mhi b (maxDepth - 1)
            (by rw [hL2, q1.length_eq]; omega) (by omega)
          set l3 := quickSortGo key n l2 mhi b (maxDepth - 1) with hL3
          have hl2len : l2.length = l.length := q1.length_eq.trans hl1len
          have hfr12 : ∀ k, (k < a ∨ mlo ≤ k) → (k < mhi ∨ b ≤ k) →
              l3.getD k default = l1.getD k default := by
            intro k hk1 hk2
            rw [w2 k hk2]
            exact q2 k hk1
          have hr1l2 : ∀ i, a ≤ i → i < mlo →
              (p = true → kAt key l2 i = true) :=
            seg_transfer (fun x => p = true → key x = true) q1 q2
              (by omega) (by omega) gp1
          refine ⟨(w1.trans q1).trans g1, ?_, ?_⟩
          · intro k hk
            rw [hfr12 k (by omega) (by omega)]
            exact g2 k hk
          · refine combine l3 (w1.trans q1) hfr12 ?_ w3 ?_ ?_ ?_
            · refine sortedSeg_congr key ?_ q3
              intro k hk1 hk2
              exact w2 k (Or.inl (by omega))
            · intro i h1 h2 hp
              have hkk : kAt key l3 i = kAt key l2 i := by
                unfold kAt
                rw [w2 i (Or.inl (by omega))]
              rw [hkk]
              exact hr1l2 i h1 h2 hp
            · intro i h1 h2
              unfold kAt
              rw [w2 i (Or.inl (by omega)), q2 i (Or.inr (by omega))]
              exact gp2 i h1 h2
            · have hp3l2 : ∀ i, mhi ≤ i → i < b →
                  (kAt key l2 i = true → p = true) := by
                intro i h1 h2
                unfold kAt
                rw [q2 i (Or.inr (by omega))]
                exact gp3 i h1 h2
              exact seg_transfer (fun x => key x = true → p = true) w1 w2
                (by omega) (by omega) hp3l2
        · rw [hres, if_neg hside]
          obtain ⟨q1, q2, q3⟩ := ih l1 mhi b (maxDepth - 1)
            (by omega) (by omega)
          set l2 := quickSortGo key n l1 mhi b (maxDepth - 1) with hL2
          obtain ⟨w1, w2, w3⟩ := ih l2 a mlo (maxDepth - 1)
            (by rw [hL2, q1.length_eq]; omega) (by omega)
          set l3 := quickSortGo key n l2 a mlo (maxDepth - 1) with hL3
          have hl2len : l2.length = l.length := q1.length_eq.trans hl1len
          have hfr12 : ∀ k, (k < a ∨ mlo ≤ k) → (k < mhi ∨ b ≤ k) →
              l3.getD k default = l1.getD k default := by
            intro k hk1 hk2
            rw [w2 k hk1]
            exact q2 k hk2
          have hr3l2 : ∀ i, mhi ≤ i → i < b →
              (kAt key l2 i = true → p = true) :=
            seg_transfer (fun x => key x = true → p = true) q1 q2
              (by omega) (by omega) gp3
          refine ⟨(w1.trans q1).trans g1, ?_, ?_⟩
          · intro k hk
            rw [hfr12 k (by omega) (by omega)]
            exact g2 k hk
          · refine combine l3 (w1.trans q1) hfr12 w3 ?_ ?_ ?_ ?_
            · refine sortedSeg_congr key ?_ q3
              intro k hk1 hk2
              exact w2 k (Or.inr (by omega))
            · have hp1l2 : ∀ i, a ≤ i → i < mlo →
                  (p = true → kAt key l2 i = true) := by
                intro i h1 h2
                unfold kAt
                rw [q2 i (Or.inl (by omega))]
                exact gp1 i h1 h2
              exact seg_transfer (fun x => p = true → key x = true) w1 w2
                (by omega) (by omega) hp1l2
            · intro i h1 h2
              unfold kAt
              rw [w2 i (Or.inr (by omega)), q2 i (Or.inl (by omega))]
              exact gp2 i h1 h2
            · intro i h1 h2
              have hkk : kAt key l3 i = kAt key l2 i := by
                unfold kAt
                rw [w2 i (Or.inr (by omega))]
              rw [hkk]
              exact hr3l2 i h1 h2
    · push_neg at h12
      by_cases h1b : b - a > 1
      · have hres : quickSortGo key (n + 1) l a b maxDepth =
            insertionSortGo key (shellPass key (b - (a + 6)) l (a + 6))
              a b := by
          rw [quickSortGo]
          rw [if_neg (by omega), if_pos h1b]
        rw [hres]
        have hsh : (shellPass key (b - (a + 6)) l (a + 6)).Perm l :=
          shellPass_perm key (b - (a + 6)) l (a + 6)
        obtain ⟨i1, i2, i3⟩ := insertionSortGo_spec key
          (shellPass key (b - (a + 6)) l (a + 6)) a b (by omega)
          (by rw [hsh.length_eq]; omega)
        refine ⟨i1.trans hsh, ?_, sortedAdjSeg_sortedSeg key i3⟩
        intro k hk
        rw [i2 k hk]
        by_cases hb6 : a + 6 ≤ b
        · exact shellPass_frame key (b - (a + 6)) l (a + 6) k (by omega)
            (by omega)
        · have hz : b - (a + 6) = 0 := by omega
          rw [hz]
          rfl
      · have hres : quickSortGo key (n + 1) l a b maxDepth = l := by
          rw [quickSortGo]
          rw [if_neg (by omega), if_neg h1b]
        rw [hres]
        refine ⟨List.Perm.refl l, fun k hk => rfl, ?_⟩
        intro i j h1 h2 h3
        have hij : i = j := by omega
        rw [hij]
        exact sLess_self key l j

theorem sortGo_spec (l : List α) :
    (sortGo key l).Perm l ∧ SortedSeg key (sortGo key l) 0 l.length := by
  obtain ⟨h1, h2, h3⟩ := quickSortGo_spec key (l.length + 1) l 0 l.length
    (maxDepthGo l.length) (Nat.le_refl _) (by omega)
  exact ⟨h1, h3⟩

end GoSortQuick

/-! ### C3: PlayerList.Sort -/

/-- Seven players in which only the last is playing. The Go 1.15
`sort.Sort` that `PlayerList.Sort` calls runs, on a 7-element segment,
a gap-6 Shell pass before insertion sort; that pass swaps positions 0
and 6, so the six non-playing players end up in the order
s1, s2, s3, s4, s5, s0 — their original relative order is not kept. -/
def c3players : List Player :=
  [{ fullName := "s0" }, { fullName := "s1" }, { fullName := "s2" },
   { fullName := "s3" }, { fullName := "s4" }, { fullName := "s5" },
   { fullName := "s6", playing := true }]

/-- C3, counterexample to stability: after `Sort()` of `c3players` the
non-playing players (all of equal playing-state) are no longer in their
original relative order, refuting the claim that the sort is stable. -/
theorem c3_sort_counterexample :
    ((plSort ⟨c3players, 0⟩).list.filter
        (fun x => !x.playing)).map Player.fullName ≠
      (c3players.filter (fun x => !x.playing)).map Player.fullName := by
  decide

/-- C3 (amended): `PlayerList.Sort` resets the selection to position 0
and permutes the player list so that every playing player precedes
every non-playing player; the sort is not stable (`sort.Sort` is
unstable — see the counterexample). -/
theorem c3_sort_amended (pl : PlayerList) :
    (plSort pl).current = 0 ∧
    (plSort pl).list.Perm pl.list ∧
    ∀ i j, i ≤ j → j < (plSort pl).list.length →
      ((plSort pl).list.getD j default).playing = true →
      ((plSort pl).list.getD i default).playing = true := by
  obtain ⟨h1, h2⟩ := sortGo_spec Player.playing pl.list
  refine ⟨rfl, h1, ?_⟩
  intro i j hij hjlen hkj
  have hL : (plSort pl).list.length = pl.list.length := h1.length_eq
  have hs := h2 i j (Nat.zero_le i) hij (by omega)
  rw [sLess_eq_false_iff] at hs
  exact hs hkj

/-- C3 witness: the amended theorem at the concrete seven-player list,
indices 2 ≤ 5. -/
theorem c3_sort_amended_witness :
    (plSort ⟨c3players, 3⟩).current = 0 ∧
    (plSort ⟨c3players, 3⟩).list.Perm c3players ∧
    (((plSort ⟨c3players, 3⟩).list.getD 5 default).playing = true →
      ((plSort ⟨c3players, 3⟩).list.getD 2 default).playing = true) := by
  obtain ⟨h1, h2, h3⟩ := c3_sort_amended ⟨c3players, 3⟩
  exact ⟨h1, h2, h3 2 5 (by decide) (by decide)⟩

end WaybarMpris
